import Mathlib

/-!
Shallow embedding of the banana-vaults CosmWasm contract (src/contract.rs,
src/state.rs, src/error.rs) and proofs about the claims of its specification.

Modelling conventions:
* `Uint128` amounts are modelled as `Nat`.  The contract uses checked
  arithmetic throughout; `checked_add` / `checked_mul` can only fail at the
  2^128 bound, which no claim depends on, so additions and multiplications
  are unbounded.  Subtraction underflow and division by zero, which occur at
  small values and are claim-relevant, are modelled exactly:
  `checked_sub(..)?` becomes an `err` outcome and the panicking `-=` of
  `Uint128`, as well as `.unwrap()` on a failed division, become `panic`.
* `Decimal` values (the commission rate, burn ratios) are fixed-point with
  18 decimals; they are represented by their atomics (numerator over 10^18),
  matching `Decimal::new`, `Decimal::checked_div` (floor of a*10^18/b) and
  `mul_floor` (floor of amount*atomics/10^18).
* Storage `Map`s (`ACCOUNTS_PENDING_MINT`, `ACCOUNTS_PENDING_BURN`,
  whitelist) are association lists kept in the map's ascending key order;
  `range(..).collect()` is the list itself.
* Host queries (bank balances, the CL position, Pyth price feeds) are
  frozen into a `VaultEnv` record passed to each operation, mirroring the
  read-only queriers.
* Response attributes (pure logging) are not modelled; `CosmosMsg` output
  is modelled by the `Msg` type.
-/

/-- A coin: denom plus Uint128 amount. -/
structure Coin where
  denom : String
  amount : Nat
deriving DecidableEq, Repr

/-- Variants of `cosmwasm_std::StdError` the contract can hit. `stalePrice`
stands for the `StdError::generic_err("Pyth quote is older than ...")`
produced by `PythQuerier::query_asset_price`. -/
inductive StdErr where
  | overflow : StdErr
  | divideByZero : StdErr
  | stalePrice : Nat → StdErr
deriving DecidableEq, Repr

/-- Model of `ContractError` (src/error.rs), restricted to the variants reachable from
the modelled entry points. -/
inductive ContractError where
  | std : StdErr → ContractError
  | overflowError : ContractError
  | checkedFromRatioError : ContractError
  | commissionTooHigh : ContractError
  | noFunds : ContractError
  | invalidMintAssets : ContractError
  | invalidToken : String → ContractError
  | redemptionBelowMinimum : Nat → ContractError
  | cannotAddMoreThanAvailableForAsset : String → ContractError
  | unauthorized : ContractError
  | cannotSwapMoreThanAvailable : String → ContractError
  | cannotSwapIntoAsset : ContractError
  | capReached : ContractError
  | vaultHalted : ContractError
  | vaultClosed : ContractError
  | cantUnlockYet : Nat → ContractError
  | noPositionsOpen : ContractError
  | depositBelowMinimum : String → ContractError
  | depositNotAllowed : String → ContractError
  | minUptime : ContractError
  | positionOpen : ContractError
  | cannotForceExit : ContractError
  | accountPendingBurn : String → ContractError
  | insufficientFundsToBurn : ContractError
  | cantProcessBurn : ContractError
  | cannotClaim : ContractError
deriving DecidableEq, Repr

/-- Result of a contract call: success, a typed error (transaction aborted
with a `ContractError`), or a Rust panic (also aborts, but is not a typed
error). -/
inductive Outcome (α : Type) where
  | ok : α → Outcome α
  | err : ContractError → Outcome α
  | panic : Outcome α
deriving DecidableEq, Repr

def Outcome.bind : Outcome α → (α → Outcome β) → Outcome β
  | .ok a, f => f a
  | .err e, _ => .err e
  | .panic, _ => .panic

instance : Monad Outcome where
  pure := .ok
  bind := Outcome.bind

/-- True when the call succeeded. -/
def Outcome.isOk : Outcome α → Bool
  | .ok _ => true
  | _ => false

/-- True when the call failed with a typed `ContractError`. -/
def Outcome.isErr : Outcome α → Bool
  | .err _ => true
  | _ => false

/-- Subtraction of `Uint128` via the panicking `-=` / `-` operators
(overflow checks abort the transaction with a panic, not a typed error). -/
def subOrPanic (a b : Nat) : Outcome Nat :=
  if b ≤ a then .ok (a - b) else .panic

-- Addresses are bech32 strings.
abbrev Addr := String

/-- Messages emitted by the contract (the subset of `CosmosMsg` it builds). -/
inductive Msg where
  | bankSend : Addr → List Coin → Msg
  | mint : String → Nat → Addr → Msg
  | burn : String → Nat → Addr → Msg
  | createPosition : Nat → List Coin → Msg
  | addToPosition : Nat → Nat → Nat → Msg
  | withdrawPosition : Nat → String → Msg
  | collectIncentives : Nat → Msg
  | collectSpreadRewards : Nat → Msg
  | splitRouteSwap : String → Nat → Msg
deriving DecidableEq, Repr

-- 10^18, the `DEC_18` constant and the `Decimal` denominator.
def DEC18 : Nat := 1000000000000000000

-- `MAX_UPDATE_INTERVAL`: 14 days in seconds.
def MAX_UPDATE_INTERVAL : Nat := 86400 * 14

-- `DEFAULT_MIN_REDEMPTION`.
def DEFAULT_MIN_REDEMPTION : Nat := 1000000

/-- Model of `amount.mul_floor(d)` for a `Decimal` with the given atomics:
floor(amount * atomics / 10^18). -/
def mulFloor (amount atomics : Nat) : Nat := amount * atomics / DEC18

/-- Immutable configuration: the vault assets (`VAULT_ASSETS`), `CONFIG`
fields used by the modelled operations, the commission rate
(`COMMISSION_RATE`, as Decimal atomics), the vault token denom
(`VAULT_DENOM`), the operator and the contract's own address. -/
structure VaultConfig where
  denom0 : String
  denom1 : String
  decimals0 : Nat
  decimals1 : Nat
  minAsset0 : Nat
  minAsset1 : Nat
  minRedemption : Option Nat
  dollarCap : Option Nat
  priceExpiry : Nat
  commissionRate : Nat
  vaultDenom : String
  operator : Addr
  contractAddr : Addr
deriving DecidableEq, Repr

/-- Mutable contract storage. `pending0`/`pending1` are the amounts of the
`ASSETS_PENDING_MINT` aggregate (denoms are fixed to asset0/asset1);
`commission0`/`commission1` are the `COMMISSION_REWARDS` amounts.
`accountsPendingMint` maps a depositor to ((funds0, funds1), min_out). -/
structure VaultState where
  supply : Nat
  pending0 : Nat
  pending1 : Nat
  accountsPendingMint : List (Addr × ((Nat × Nat) × Nat))
  accountsPendingBurn : List (Addr × Nat)
  commission0 : Nat
  commission1 : Nat
  uncompoundedRewards : List Coin
  whitelist : List Addr
  capReached : Bool
  halted : Bool
  terminated : Bool
  positionOpen : Bool
  lastUpdate : Nat
deriving DecidableEq, Repr

/-- A Pyth price feed: latest price (nonnegative case) and publish time. -/
structure PriceFeed where
  price : Nat
  publishTime : Int
deriving DecidableEq, Repr

/-- The concentrated-liquidity position as reported by the host
(`FullPositionBreakdown`). -/
structure PositionInfo where
  positionId : Nat
  posAsset0 : Nat
  posAsset1 : Nat
  claimableIncentives : List Coin
  claimableSpreadRewards : List Coin
  forfeitedIncentives : List Coin
  liquidity : String
deriving DecidableEq, Repr

/-- Read-only host environment for one call: block time, the contract's
bank balances of the two vault assets, the open position (if any), the two
price feeds, and the vault-token balance of arbitrary addresses (used by
`prepare_force_burn`). -/
structure VaultEnv where
  now : Nat
  bank0 : Nat
  bank1 : Nat
  position : PositionInfo
  feed0 : PriceFeed
  feed1 : PriceFeed
  tokenBalance : Addr → Nat

-- Association-list helpers standing for `cw_storage_plus::Map` access.

def alistLookup [DecidableEq κ] : List (κ × β) → κ → Option β
  | [], _ => none
  | (k2, v) :: rest, k => if k2 = k then some v else alistLookup rest k

def alistUpsert [DecidableEq κ] : List (κ × β) → κ → β → List (κ × β)
  | [], k, v => [(k, v)]
  | (k2, v2) :: rest, k, v =>
    if k2 = k then (k, v) :: rest else (k2, v2) :: alistUpsert rest k v

def alistRemove [DecidableEq κ] : List (κ × β) → κ → List (κ × β)
  | [], _ => []
  | (k2, v) :: rest, k =>
    if k2 = k then alistRemove rest k else (k2, v) :: alistRemove rest k

def alistKeys (l : List (κ × β)) : List κ := l.map Prod.fst

-- `cosmwasm_std::Coins`: amounts aggregated by denom.

def coinsAdd : List Coin → Coin → List Coin
  | [], c => [c]
  | d :: rest, c =>
    if d.denom = c.denom then ⟨d.denom, d.amount + c.amount⟩ :: rest
    else d :: coinsAdd rest c

def coinsAmountOf : List Coin → String → Nat
  | [], _ => 0
  | c :: rest, d =>
    if c.denom = d then c.amount + coinsAmountOf rest d else coinsAmountOf rest d

def coinsAddAll (l : List Coin) (cs : List Coin) : List Coin :=
  cs.foldl coinsAdd l

-- Sum of the per-depositor pending-mint entries, per asset.

def pendingSum0 (l : List (Addr × ((Nat × Nat) × Nat))) : Nat :=
  (l.map (fun e => e.2.1.1)).sum

def pendingSum1 (l : List (Addr × ((Nat × Nat) × Nat))) : Nat :=
  (l.map (fun e => e.2.1.2)).sum

/-- The core conservation invariant: the per-depositor pending-mint entries
sum, component-wise, to the `ASSETS_PENDING_MINT` aggregate. -/
def mintConservation (s : VaultState) : Prop :=
  pendingSum0 s.accountsPendingMint = s.pending0 ∧
    pendingSum1 s.accountsPendingMint = s.pending1

instance (s : VaultState) : Decidable (mintConservation s) := by
  unfold mintConservation; infer_instance

/-- Model of `PythQuerier::query_asset_price`: fails when the feed's latest update is
older than `expiry` seconds relative to `time`
(`get_price_no_older_than(time, expiry)` returns the price exactly when
`publish_time >= time - expiry`); otherwise converts the raw price to an
18-decimal representation: price * 10^18 / 10^exponent. -/
def query_asset_price (feed : PriceFeed) (time : Int) (expiry : Nat)
    (exponent : Nat) : Outcome Nat :=
  if feed.publishTime < time - (expiry : Int) then
    .err (.std (.stalePrice expiry))
  else
    .ok (feed.price * DEC18 / 10 ^ exponent)

/-- Model of `get_asset_prices`: query both vault-asset prices at the current block
time. (On live networks the Pyth querier is selected; the mock querier is
reachable only with the dummy test-tube contract address.) -/
def get_asset_prices (cfg : VaultConfig) (ev : VaultEnv) : Outcome (Nat × Nat) :=
  Outcome.bind (query_asset_price ev.feed0 (ev.now : Int) cfg.priceExpiry cfg.decimals0)
    (fun p0 =>
      Outcome.bind (query_asset_price ev.feed1 (ev.now : Int) cfg.priceExpiry cfg.decimals1)
        (fun p1 => .ok (p0, p1)))

/-- The `Pricing` record returned by `get_vault_pricing`. -/
structure Pricing where
  totalDollars : Nat
  price0 : Nat
  price1 : Nat
  vaultPrice : Nat
deriving DecidableEq, Repr

/-- Model of `get_vault_pricing`: dollar value of the given balances and the per-share
price `total_dollars / supply` (`checked_div`, error on zero supply). -/
def get_vault_pricing (cfg : VaultConfig) (ev : VaultEnv) (s : VaultState)
    (amount0 amount1 : Nat) : Outcome Pricing :=
  Outcome.bind (get_asset_prices cfg ev) (fun p =>
    let dollars0 := amount0 * p.1
    let dollars1 := amount1 * p.2
    let totalDollars := dollars0 + dollars1
    if s.supply = 0 then .err (.std .divideByZero)
    else .ok ⟨totalDollars, p.1, p.2, totalDollars / s.supply⟩)

/-- Fold of the position's claimable reward coins into the balances, each
multiplied by `1 - commission_rate` (floored), as in `get_vault_balances`. -/
def addRewardBalances (cfg : VaultConfig) (remainder : Nat) :
    List Coin → Nat × Nat → Nat × Nat
  | [], acc => acc
  | c :: rest, (a0, a1) =>
    if c.denom = cfg.denom0 then
      addRewardBalances cfg remainder rest (a0 + mulFloor c.amount remainder, a1)
    else if c.denom = cfg.denom1 then
      addRewardBalances cfg remainder rest (a0, a1 + mulFloor c.amount remainder)
    else
      addRewardBalances cfg remainder rest (a0, a1)

/-- Model of `get_vault_balances`: the vault's holdings of asset0/asset1 — bank
balances, plus (when a position is open and `includePosition`) the position
principal and its claimable rewards net of commission — minus the
pending-mint aggregate and the commission rewards (`checked_sub`, error on
underflow). -/
def get_vault_balances (cfg : VaultConfig) (ev : VaultEnv) (s : VaultState)
    (includePosition : Bool) : Outcome (Nat × Nat) :=
  let base :=
    if s.positionOpen && includePosition then
      let remainder := DEC18 - cfg.commissionRate
      let withPos := (ev.bank0 + ev.position.posAsset0, ev.bank1 + ev.position.posAsset1)
      let withInc := addRewardBalances cfg remainder ev.position.claimableIncentives withPos
      addRewardBalances cfg remainder ev.position.claimableSpreadRewards withInc
    else (ev.bank0, ev.bank1)
  if s.pending0 + s.commission0 ≤ base.1 then
    if s.pending1 + s.commission1 ≤ base.2 then
      .ok (base.1 - (s.pending0 + s.commission0), base.2 - (s.pending1 + s.commission1))
    else .err (.std .overflow)
  else .err (.std .overflow)

/-- Model of `check_deposit_min`. -/
def check_deposit_min (minDeposit : Nat) (c : Coin) : Outcome Unit :=
  if minDeposit = 0 then .err (.depositNotAllowed c.denom)
  else if c.amount < minDeposit then .err (.depositBelowMinimum c.denom)
  else .ok ()

/-- Loop body of `verify_mint_funds`: each fund must be asset0 or asset1 and
meet the minimum; the matching slot is assigned (not accumulated). -/
def verifyMintFundsLoop (cfg : VaultConfig) : List Coin → Nat → Nat → Outcome (Nat × Nat)
  | [], a0, a1 => .ok (a0, a1)
  | f :: rest, a0, a1 =>
    if f.denom = cfg.denom0 then
      Outcome.bind (check_deposit_min cfg.minAsset0 f)
        (fun _ => verifyMintFundsLoop cfg rest f.amount a1)
    else if f.denom = cfg.denom1 then
      Outcome.bind (check_deposit_min cfg.minAsset1 f)
        (fun _ => verifyMintFundsLoop cfg rest a0 f.amount)
    else .err .invalidMintAssets

/-- Model of `verify_mint_funds`. -/
def verify_mint_funds (cfg : VaultConfig) (funds : List Coin) : Outcome (Nat × Nat) :=
  if funds = [] then .err .noFunds
  else verifyMintFundsLoop cfg funds 0 0

/-- Model of `verify_burn_funds`: funds must be exactly one coin of the vault denom,
meeting the minimum redemption. -/
def verify_burn_funds (cfg : VaultConfig) (funds : List Coin) : Outcome Unit :=
  match funds with
  | [] => .err .noFunds
  | f0 :: rest =>
    if rest ≠ [] ∨ f0.denom ≠ cfg.vaultDenom then
      .err (.invalidToken cfg.vaultDenom)
    else
      let minRedemption := cfg.minRedemption.getD DEFAULT_MIN_REDEMPTION
      if f0.amount < minRedemption then
        .err (.redemptionBelowMinimum minRedemption)
      else .ok ()

/-- Loop of `verify_availability_of_funds`: each provided token of a vault
asset denom must not exceed balance − (pending + commission) for that asset
(the `checked_sub` itself errors when the reserve exceeds the balance). -/
def verifyAvailabilityLoop (cfg : VaultConfig) (reserved0 reserved1 amount0 amount1 : Nat) :
    List Coin → Outcome Unit
  | [] => .ok ()
  | t :: rest =>
    if t.denom = cfg.denom0 then
      if reserved0 ≤ amount0 then
        if t.amount > amount0 - reserved0 then
          .err (.cannotAddMoreThanAvailableForAsset cfg.denom0)
        else
          if t.denom = cfg.denom1 then
            if reserved1 ≤ amount1 then
              if t.amount > amount1 - reserved1 then
                .err (.cannotAddMoreThanAvailableForAsset cfg.denom1)
              else verifyAvailabilityLoop cfg reserved0 reserved1 amount0 amount1 rest
            else .err .overflowError
          else verifyAvailabilityLoop cfg reserved0 reserved1 amount0 amount1 rest
      else .err .overflowError
    else
      if t.denom = cfg.denom1 then
        if reserved1 ≤ amount1 then
          if t.amount > amount1 - reserved1 then
            .err (.cannotAddMoreThanAvailableForAsset cfg.denom1)
          else verifyAvailabilityLoop cfg reserved0 reserved1 amount0 amount1 rest
        else .err .overflowError
      else verifyAvailabilityLoop cfg reserved0 reserved1 amount0 amount1 rest

/-- Model of `verify_availability_of_funds`: reserves are the pending-mint aggregate
plus the commission rewards. -/
def verify_availability_of_funds (cfg : VaultConfig) (s : VaultState)
    (tokensProvided : List Coin) (amount0 amount1 : Nat) : Outcome Unit :=
  verifyAvailabilityLoop cfg (s.pending0 + s.commission0) (s.pending1 + s.commission1)
    amount0 amount1 tokensProvided

/-- Result of `collect_rewards` (`struct Rewards`): the full vault-asset
reward amounts, the new uncompounded-rewards list, the new commission
amounts, and the claim messages. -/
structure RewardsOut where
  amount0 : Nat
  amount1 : Nat
  nonVault : List Coin
  commission0 : Nat
  commission1 : Nat
  msgs : List Msg
deriving DecidableEq, Repr

/-- Accumulator of the reward-split loop in `collect_rewards`. -/
structure RewardAcc where
  commission0 : Nat
  commission1 : Nat
  amount0 : Nat
  amount1 : Nat
  nonVault : List Coin
deriving DecidableEq, Repr

/-- The reward-split loop of `collect_rewards`: for each aggregated reward
coin of a vault-asset denom, add `mul_floor(amount, commission_rate)` to the
matching commission tracker and record the full amount as the compoundable
balance increment; other denoms are added in full to uncompounded rewards. -/
def rewardSplitLoop (cfg : VaultConfig) : List Coin → RewardAcc → RewardAcc
  | [], acc => acc
  | c :: rest, acc =>
    let commissionAmount := mulFloor c.amount cfg.commissionRate
    if c.denom = cfg.denom0 then
      rewardSplitLoop cfg rest
        { acc with commission0 := acc.commission0 + commissionAmount, amount0 := c.amount }
    else if c.denom = cfg.denom1 then
      rewardSplitLoop cfg rest
        { acc with commission1 := acc.commission1 + commissionAmount, amount1 := c.amount }
    else
      rewardSplitLoop cfg rest { acc with nonVault := coinsAdd acc.nonVault c }

/-- The position's claimable incentives and spread rewards aggregated into a
`Coins` collection (one entry per denom). -/
def rewardCoinsOf (pos : PositionInfo) : List Coin :=
  coinsAddAll (coinsAddAll [] pos.claimableIncentives) pos.claimableSpreadRewards

/-- Model of `collect_rewards`: fails with `MinUptime` when incentives would be
forfeited and the operator did not override; otherwise aggregates the
claimable rewards, emits the claim messages, and splits each reward coin
between commission and compoundable/uncompounded balance. -/
def collect_rewards (cfg : VaultConfig) (s : VaultState) (pos : PositionInfo)
    (overrideUptime : Bool) : Outcome RewardsOut :=
  if pos.forfeitedIncentives ≠ [] ∧ ¬overrideUptime then .err .minUptime
  else
    let rewardCoins := rewardCoinsOf pos
    let msgs :=
      (if pos.claimableIncentives ≠ [] then [Msg.collectIncentives pos.positionId] else []) ++
        (if pos.claimableSpreadRewards ≠ [] then [Msg.collectSpreadRewards pos.positionId] else [])
    let uncompounded := coinsAddAll [] s.uncompoundedRewards
    let acc := rewardSplitLoop cfg rewardCoins
      ⟨s.commission0, s.commission1, 0, 0, uncompounded⟩
    .ok ⟨acc.amount0, acc.amount1, acc.nonVault, acc.commission0, acc.commission1, msgs⟩

/-- A proposed swap (`msg::Swap`), flattened: the input denom, the
`token_in_amount` of each split route, the minimum output, and the output
denom of the first route's last pool hop. -/
structure Swap where
  tokenInDenom : String
  tokenInAmounts : List Nat
  tokenOutMinAmount : Nat
  lastTokenOutDenom : Option String
deriving DecidableEq, Repr

/-- Model of `prepare_swap`: validates the total input against the matching liquid
balance, debits it, credits the minimum output to the output-side balance,
and emits the swap message. -/
def prepare_swap (asset0 asset1 : Coin) (swap : Swap) :
    Outcome (Coin × Coin × Msg) :=
  let tokenInAmount := swap.tokenInAmounts.sum
  let step0 : Outcome Coin :=
    if swap.tokenInDenom = asset0.denom then
      if tokenInAmount > asset0.amount then
        .err (.cannotSwapMoreThanAvailable asset0.denom)
      else .ok ⟨asset0.denom, asset0.amount - tokenInAmount⟩
    else .ok asset0
  Outcome.bind step0 (fun a0 =>
    let step1 : Outcome Coin :=
      if swap.tokenInDenom = asset1.denom then
        if tokenInAmount > asset1.amount then
          .err (.cannotSwapMoreThanAvailable asset1.denom)
        else .ok ⟨asset1.denom, asset1.amount - tokenInAmount⟩
      else .ok asset1
    Outcome.bind step1 (fun a1 =>
      let (a0, a1) :=
        match swap.lastTokenOutDenom with
        | some d =>
          if d = a0.denom then (⟨a0.denom, a0.amount + swap.tokenOutMinAmount⟩, a1)
          else if d = a1.denom then (a0, ⟨a1.denom, a1.amount + swap.tokenOutMinAmount⟩)
          else (a0, a1)
        | none => (a0, a1)
      .ok (a0, a1, Msg.splitRouteSwap swap.tokenInDenom tokenInAmount)))

/-- Model of `execute_deposit_for_mint`: gated by terminated/halted/cap/pending-burn,
validates the funds, then credits both the `ASSETS_PENDING_MINT` aggregate
and the depositor's `ACCOUNTS_PENDING_MINT` entry by the same amounts. -/
def execute_deposit_for_mint (cfg : VaultConfig) (s : VaultState) (sender : Addr)
    (funds : List Coin) (minOut : Option Nat) : Outcome VaultState :=
  if s.terminated then .err .vaultClosed
  else if s.halted then .err .vaultHalted
  else if s.capReached && !(s.whitelist.contains sender) then .err .capReached
  else if (alistLookup s.accountsPendingBurn sender).isSome then
    .err (.accountPendingBurn sender)
  else
    Outcome.bind (verify_mint_funds cfg funds) (fun m =>
      let s := { s with pending0 := s.pending0 + m.1, pending1 := s.pending1 + m.2 }
      let minOutAmt := minOut.getD 0
      match alistLookup s.accountsPendingMint sender with
      | some ((c0, c1), currentMinOut) =>
        let newMap := alistUpsert s.accountsPendingMint sender
          ((c0 + m.1, c1 + m.2), currentMinOut + minOutAmt)
        .ok { s with accountsPendingMint := newMap }
      | none =>
        let newMap := alistUpsert s.accountsPendingMint sender ((m.1, m.2), minOutAmt)
        .ok { s with accountsPendingMint := newMap })

/-- Model of `prepare_force_burn`: requires a nonzero amount and a sufficient
vault-token balance at the target, and emits burn-from-target plus
re-mint-to-vault messages. -/
def prepare_force_burn (cfg : VaultConfig) (ev : VaultEnv) (targetAddress : Addr)
    (amount : Option Nat) : Outcome (List Msg) :=
  let amt := amount.getD 0
  if amt = 0 then .err .insufficientFundsToBurn
  else if ev.tokenBalance targetAddress < amt then .err .insufficientFundsToBurn
  else .ok [Msg.burn cfg.vaultDenom amt targetAddress,
            Msg.mint cfg.vaultDenom amt cfg.contractAddr]

/-- The refund coins for a pending-mint entry: `[coin funds0 denom0,
coin funds1 denom1]` with zero amounts removed (`retain`). -/
def refundCoins (cfg : VaultConfig) (funds : Nat × Nat) : List Coin :=
  ([⟨cfg.denom0, funds.1⟩, ⟨cfg.denom1, funds.2⟩] : List Coin).filter
    (fun c => c.amount ≠ 0)

/-- The shares computed for a depositor in `process_mints`:
`(funds0*price0 + funds1*price1) / vault_price` (floor). -/
def toMintOf (pr : Pricing) (c0 c1 : Nat) : Nat :=
  (c0 * pr.price0 + c1 * pr.price1) / pr.vaultPrice

/-- Accumulator of the `process_mints` loop: the live
`ACCOUNTS_PENDING_MINT` map, the `ASSETS_PENDING_MINT` amounts, the running
`total_minted` and `total_dollars_in_vault`, and the emitted messages. -/
structure MintAcc where
  map : List (Addr × ((Nat × Nat) × Nat))
  pending0 : Nat
  pending1 : Nat
  totalMinted : Nat
  totalDollars : Nat
  msgs : List Msg
deriving DecidableEq, Repr

/-- One iteration of the `process_mints` loop over a snapshot entry.
When the computed shares meet the depositor's `min_out`, the aggregate is
debited by the entry's exact funds (panicking `-=`), the entry is removed,
and a mint message is emitted for a nonzero amount; otherwise the entry is
left queued.  `total_minted` and `total_dollars_in_vault` are updated in
both cases, as in the source.  `checked_div(..).unwrap()` panics when the
vault price is zero. -/
def mintStep (cfg : VaultConfig) (pr : Pricing) (acc : MintAcc)
    (e : Addr × ((Nat × Nat) × Nat)) : Outcome MintAcc :=
  if pr.vaultPrice = 0 then .panic
  else if e.2.2 ≤ toMintOf pr e.2.1.1 e.2.1.2 then
    Outcome.bind (subOrPanic acc.pending0 e.2.1.1) (fun p0 =>
      Outcome.bind (subOrPanic acc.pending1 e.2.1.2) (fun p1 =>
        .ok ⟨alistRemove acc.map e.1, p0, p1,
             acc.totalMinted + toMintOf pr e.2.1.1 e.2.1.2,
             acc.totalDollars + (e.2.1.1 * pr.price0 + e.2.1.2 * pr.price1),
             acc.msgs ++
               (if toMintOf pr e.2.1.1 e.2.1.2 = 0 then []
                else [Msg.mint cfg.vaultDenom (toMintOf pr e.2.1.1 e.2.1.2) e.1])⟩))
  else
    .ok { acc with
            totalMinted := acc.totalMinted + toMintOf pr e.2.1.1 e.2.1.2,
            totalDollars := acc.totalDollars + (e.2.1.1 * pr.price0 + e.2.1.2 * pr.price1) }

/-- The `process_mints` loop over the snapshot of queued entries. -/
def mintLoop (cfg : VaultConfig) (pr : Pricing) :
    List (Addr × ((Nat × Nat) × Nat)) → MintAcc → Outcome MintAcc
  | [], acc => .ok acc
  | e :: rest, acc =>
    match mintStep cfg pr acc e with
    | .ok acc2 => mintLoop cfg pr rest acc2
    | .err er => .err er
    | .panic => .panic

/-- Model of `process_mints`: settle the pending-mint queue at the current balances
and prices, update the supply by `total_minted`, store the new aggregate,
and recompute the cap flag when a dollar cap is configured. -/
def process_mints (cfg : VaultConfig) (ev : VaultEnv) (s : VaultState) :
    Outcome (VaultState × List Msg) :=
  let entries := s.accountsPendingMint
  if entries = [] then .ok (s, [])
  else
    Outcome.bind (get_vault_balances cfg ev s true) (fun bal =>
      Outcome.bind (get_vault_pricing cfg ev s bal.1 bal.2) (fun pr =>
        Outcome.bind
          (mintLoop cfg pr entries ⟨entries, s.pending0, s.pending1, 0, pr.totalDollars, []⟩)
          (fun acc =>
            let newCap :=
              match cfg.dollarCap with
              | some cap => decide (cap ≤ acc.totalDollars)
              | none => s.capReached
            let s2 := { s with accountsPendingMint := acc.map,
                               pending0 := acc.pending0,
                               pending1 := acc.pending1,
                               supply := s.supply + acc.totalMinted,
                               capReached := newCap }
            .ok (s2, acc.msgs))))

/-- Accumulator of the `process_burns` loop: total shares burned, the
per-asset totals queued for distribution, and the send messages. -/
structure BurnAcc where
  totalBurned : Nat
  dist0 : Nat
  dist1 : Nat
  msgs : List Msg
deriving DecidableEq, Repr

/-- One iteration of the `process_burns` loop: the burner's ratio is
`Decimal::new(to_burn) / Decimal::new(supply)` (atomics
`to_burn * 10^18 / supply`, error on zero supply), each asset share is
`total.mul_floor(ratio)`, and a send message is emitted when nonzero. -/
def burnStep (cfg : VaultConfig) (supply total0 total1 : Nat) (acc : BurnAcc)
    (e : Addr × Nat) : Outcome BurnAcc :=
  if supply = 0 then .err .checkedFromRatioError
  else
    let ratio := e.2 * DEC18 / supply
    let send0 := mulFloor total0 ratio
    let send1 := mulFloor total1 ratio
    let amountToSend :=
      ([⟨cfg.denom0, send0⟩, ⟨cfg.denom1, send1⟩] : List Coin).filter
        (fun c => c.amount ≠ 0)
    let newMsgs :=
      acc.msgs ++ (if amountToSend = [] then [] else [Msg.bankSend e.1 amountToSend])
    .ok ⟨acc.totalBurned + e.2, acc.dist0 + send0, acc.dist1 + send1, newMsgs⟩

/-- The `process_burns` loop over the snapshot of queued exits. -/
def burnLoop (cfg : VaultConfig) (supply total0 total1 : Nat) :
    List (Addr × Nat) → BurnAcc → Outcome BurnAcc
  | [], acc => .ok acc
  | e :: rest, acc =>
    match burnStep cfg supply total0 total1 acc e with
    | .ok acc2 => burnLoop cfg supply total0 total1 rest acc2
    | .err er => .err er
    | .panic => .panic

/-- Model of `process_burns`: compute every burner's share from one balances
snapshot, fail atomically with `CantProcessBurn` when the distribution
would exceed the liquid (position-exclusive) balances, then burn the
shares, reduce the supply, clear the queue, and either terminate the vault
(all shares burned) or recompute the cap flag. -/
def process_burns (cfg : VaultConfig) (ev : VaultEnv) (s : VaultState) :
    Outcome (VaultState × List Msg) :=
  let exits := s.accountsPendingBurn
  if exits = [] then .ok (s, [])
  else
    Outcome.bind (get_vault_balances cfg ev s true) (fun total =>
      Outcome.bind (burnLoop cfg s.supply total.1 total.2 exits ⟨0, 0, 0, []⟩) (fun acc =>
        Outcome.bind (get_vault_balances cfg ev s false) (fun liquid =>
          if acc.dist0 > liquid.1 ∨ acc.dist1 > liquid.2 then .err .cantProcessBurn
          else
            let msgs :=
              acc.msgs ++ (if acc.totalBurned = 0 then []
                           else [Msg.burn cfg.vaultDenom acc.totalBurned cfg.contractAddr])
            if acc.totalBurned ≤ s.supply then
              let s2 := { s with supply := s.supply - acc.totalBurned,
                                 accountsPendingBurn := [] }
              if s.supply = acc.totalBurned then
                .ok ({ s2 with terminated := true }, msgs)
              else
                match cfg.dollarCap with
                | none => .ok (s2, msgs)
                | some cap =>
                  Outcome.bind (get_asset_prices cfg ev) (fun p =>
                    if acc.dist0 ≤ total.1 then
                      if acc.dist1 ≤ total.2 then
                        let dollars :=
                          (total.1 - acc.dist0) * p.1 + (total.2 - acc.dist1) * p.2
                        .ok ({ s2 with capReached := decide (cap ≤ dollars) }, msgs)
                      else .err .overflowError
                    else .err .overflowError)
            else .err .overflowError)))

/-- Model of `execute_deposit_for_burn` (entry `Deposit::Burn`): after the halted
check the source reads `info.funds[0].amount` unconditionally, which panics
when no funds were sent; `verify_burn_funds` (with its `NoFunds` branch) is
only reached on the non-forced path afterwards.  The call then queues the
burn, immediately refunds and removes any pending-mint entry of the burn
address (debiting the aggregate by the entry's exact funds), and, when the
vault is terminated, processes all pending burns at once. -/
def execute_deposit_for_burn (cfg : VaultConfig) (ev : VaultEnv) (s : VaultState)
    (sender : Addr) (address : Option Addr) (amount : Option Nat)
    (funds : List Coin) : Outcome (VaultState × List Msg) :=
  if s.halted then .err .vaultHalted
  else
    match funds with
    | [] => .panic
    | f0 :: _ =>
      let forced : Outcome (Addr × Nat × List Msg) :=
        match address with
        | some addr =>
          if sender ≠ cfg.operator then .err .cannotForceExit
          else
            Outcome.bind (prepare_force_burn cfg ev addr amount) (fun msgs =>
              .ok (addr, amount.getD 0, msgs))
        | none =>
          Outcome.bind (verify_burn_funds cfg funds) (fun _ =>
            .ok (sender, f0.amount, []))
      Outcome.bind forced (fun res =>
        let burnAddress := res.1
        let burnAmount := res.2.1
        let newBurnMap :=
          match alistLookup s.accountsPendingBurn burnAddress with
          | some pendingBurn =>
            alistUpsert s.accountsPendingBurn burnAddress (pendingBurn + burnAmount)
          | none => alistUpsert s.accountsPendingBurn burnAddress burnAmount
        let s := { s with accountsPendingBurn := newBurnMap }
        let cancel : Outcome (VaultState × List Msg) :=
          match alistLookup s.accountsPendingMint burnAddress with
          | some (pendingMint, _) =>
            Outcome.bind (subOrPanic s.pending0 pendingMint.1) (fun p0 =>
              Outcome.bind (subOrPanic s.pending1 pendingMint.2) (fun p1 =>
                let newMintMap := alistRemove s.accountsPendingMint burnAddress
                .ok ({ s with pending0 := p0, pending1 := p1,
                              accountsPendingMint := newMintMap },
                     [Msg.bankSend burnAddress (refundCoins cfg pendingMint)])))
          | none => .ok (s, [])
        Outcome.bind cancel (fun c =>
          let s := c.1
          let msgs := res.2.2 ++ c.2
          if s.terminated then
            Outcome.bind (process_burns cfg ev s) (fun final =>
              .ok (final.1, msgs ++ final.2))
          else .ok (s, msgs)))

/-- Model of `execute_withdraw_position` (dispatched from `ManagePosition`, so
operator-only and rejected when terminated): collects rewards first (the
claim messages need not be executed, withdrawal auto-claims), stores the
updated reward trackers, emits the withdraw message for the requested
liquidity amount, and unconditionally clears `POSITION_OPEN`. -/
def execute_withdraw_position (cfg : VaultConfig) (ev : VaultEnv) (s : VaultState)
    (sender : Addr) (positionId : Nat) (liquidityAmount : String)
    (overrideUptime : Option Bool) : Outcome (VaultState × List Msg) :=
  if sender ≠ cfg.operator then .err .unauthorized
  else if s.terminated then .err .vaultClosed
  else
    Outcome.bind (collect_rewards cfg s ev.position (overrideUptime.getD false))
      (fun rewards =>
        let s2 := { s with uncompoundedRewards := rewards.nonVault,
                           commission0 := rewards.commission0,
                           commission1 := rewards.commission1,
                           positionOpen := false }
        .ok (s2, [Msg.withdrawPosition positionId liquidityAmount]))

/-- Model of `execute_add_to_position` (dispatched from `ManagePosition`): collects
rewards (their full vault-asset amounts are credited to the working
balances), optionally swaps, then validates the provided tokens against
the liquid balances net of the updated reserves before emitting the
add-to-position message. -/
def execute_add_to_position (cfg : VaultConfig) (ev : VaultEnv) (s : VaultState)
    (sender : Addr) (positionId : Nat) (amount0 amount1 : Nat)
    (swap : Option Swap) (overrideUptime : Option Bool) :
    Outcome (VaultState × List Msg) :=
  if sender ≠ cfg.operator then .err .unauthorized
  else if s.terminated then .err .vaultClosed
  else
    Outcome.bind (collect_rewards cfg s ev.position (overrideUptime.getD false))
      (fun rewards =>
        let s2 := { s with uncompoundedRewards := rewards.nonVault,
                           commission0 := rewards.commission0,
                           commission1 := rewards.commission1 }
        let balance0 : Coin := ⟨cfg.denom0, ev.bank0 + rewards.amount0⟩
        let balance1 : Coin := ⟨cfg.denom1, ev.bank1 + rewards.amount1⟩
        let afterSwap : Outcome (Coin × Coin × List Msg) :=
          match swap with
          | some sw =>
            Outcome.bind (prepare_swap balance0 balance1 sw) (fun r =>
              .ok (r.1, r.2.1, [r.2.2]))
          | none => .ok (balance0, balance1, [])
        Outcome.bind afterSwap (fun bs =>
          let tokensProvided : List Coin := [⟨cfg.denom0, amount0⟩, ⟨cfg.denom1, amount1⟩]
          Outcome.bind
            (verify_availability_of_funds cfg s2 tokensProvided bs.1.amount bs.2.1.amount)
            (fun _ =>
              .ok (s2, rewards.msgs ++ bs.2.2 ++ [Msg.addToPosition positionId amount0 amount1]))))

/-- Model of `execute_unlock`: operator-only unless `MAX_UPDATE_INTERVAL` has passed
since `LAST_UPDATE`; refunds every queued pending-mint entry and clears the
per-account map (the `ASSETS_PENDING_MINT` aggregate is not touched by the
source), force-closes an open position (collecting rewards with the uptime
override), marks the vault terminated (and unhalted), and settles all
pending burns. -/
def execute_unlock (cfg : VaultConfig) (ev : VaultEnv) (s : VaultState)
    (sender : Addr) : Outcome (VaultState × List Msg) :=
  if sender ≠ cfg.operator ∧ ev.now < s.lastUpdate + MAX_UPDATE_INTERVAL then
    .err (.cantUnlockYet (s.lastUpdate + MAX_UPDATE_INTERVAL - ev.now))
  else
    let refundMsgs : List Msg :=
      s.accountsPendingMint.map (fun e => Msg.bankSend e.1 (refundCoins cfg e.2.1))
    let s := { s with accountsPendingMint := [] }
    let closePosition : Outcome (VaultState × List Msg) :=
      if s.positionOpen then
        Outcome.bind (collect_rewards cfg s ev.position true) (fun rewards =>
          let s2 := { s with uncompoundedRewards := rewards.nonVault,
                             commission0 := rewards.commission0,
                             commission1 := rewards.commission1,
                             positionOpen := false }
          .ok (s2, [Msg.withdrawPosition ev.position.positionId ev.position.liquidity]))
      else .ok (s, [])
    Outcome.bind closePosition (fun cp =>
      let s2 := { cp.1 with halted := false, terminated := true }
      Outcome.bind (process_burns cfg ev s2) (fun final =>
        .ok (final.1, refundMsgs ++ cp.2 ++ final.2)))

/-- The entries of a mint settlement that meet their `min_out` and are
therefore settled (removed from the queue, aggregate debited). -/
def settledEntries (pr : Pricing) (l : List (Addr × ((Nat × Nat) × Nat))) :
    List (Addr × ((Nat × Nat) × Nat)) :=
  l.filter (fun e => decide (e.2.2 ≤ toMintOf pr e.2.1.1 e.2.1.2))

/-- The mint messages emitted for a list of settled entries (zero-share
mints are skipped). -/
def mintMsgsOf (cfg : VaultConfig) (pr : Pricing)
    (l : List (Addr × ((Nat × Nat) × Nat))) : List Msg :=
  l.filterMap (fun e =>
    let t := toMintOf pr e.2.1.1 e.2.1.2
    if t = 0 then none else some (Msg.mint cfg.vaultDenom t e.1))

/-- Removing the keys of the given entries from a map, in order. -/
def removeEntryKeys (l : List (Addr × ((Nat × Nat) × Nat)))
    (entries : List (Addr × ((Nat × Nat) × Nat))) :
    List (Addr × ((Nat × Nat) × Nat)) :=
  entries.foldl (fun mp e => alistRemove mp e.1) l

-- Concrete instances used by the closed theorems and the witnesses.

/-- A vault over uatom/uosmo with 18-decimal feeds, no commission, no cap. -/
def cfgA : VaultConfig :=
  ⟨"uatom", "uosmo", 18, 18, 1, 1, some 1, none, 60, 0, "factory/vault/BVT", "op", "vault"⟩

/-- Like `cfgA` but with a 1% commission rate (atomics 10^16). -/
def cfgB : VaultConfig :=
  { cfgA with commissionRate := 10000000000000000 }

/-- No position open. -/
def posEmpty : PositionInfo := ⟨0, 0, 0, [], [], [], "0"⟩

/-- An open position holding 50 uatom of principal and no claimable rewards. -/
def posPrincipal : PositionInfo := ⟨7, 50, 0, [], [], [], "1000"⟩

/-- An open position with claimable incentives: 1000 uatom, 500 uosmo and
77 ufoo. -/
def posRewarded : PositionInfo :=
  ⟨7, 0, 0, [⟨"uatom", 1000⟩, ⟨"uosmo", 500⟩, ⟨"ufoo", 77⟩], [], [], "1"⟩

/-- Fresh feeds pricing both assets at 1 dollar (raw 1, exponent 18). -/
def envFresh : VaultEnv := ⟨0, 102, 0, posEmpty, ⟨1, 0⟩, ⟨1, 0⟩, fun _ => 0⟩

/-- Block time 1000 with feed0 last updated at 900: older than the 60-second
expiry of `cfgA`. -/
def envStale : VaultEnv := ⟨1000, 102, 0, posEmpty, ⟨1, 900⟩, ⟨1, 1000⟩, fun _ => 0⟩

/-- A vault one second before the dead-man interval since `lastUpdate = 0`
elapses. -/
def envAlmost : VaultEnv :=
  ⟨MAX_UPDATE_INTERVAL - 1, 102, 0, posEmpty,
   ⟨1, (MAX_UPDATE_INTERVAL : Int) - 1⟩, ⟨1, (MAX_UPDATE_INTERVAL : Int) - 1⟩, fun _ => 0⟩

/-- One second after `envAlmost`: exactly at the dead-man interval. -/
def envElapsed : VaultEnv :=
  ⟨MAX_UPDATE_INTERVAL, 2, 0, posEmpty,
   ⟨1, (MAX_UPDATE_INTERVAL : Int)⟩, ⟨1, (MAX_UPDATE_INTERVAL : Int)⟩, fun _ => 0⟩

/-- Environment for the burn scenarios: bank holds 10 uatom and the open
position holds 50 uatom, so the full balance is 60 but only 10 is liquid. -/
def envBurn : VaultEnv := ⟨0, 10, 0, posPrincipal, ⟨1, 0⟩, ⟨1, 0⟩, fun _ => 0⟩

/-- Supply 1 with bob queued: funds (100 uatom, 0), `min_out` 60; aggregate
(100, 0); bank 102 so the liquid balance is 2 and the share price 2.  Bob's
computed shares are 100/2 = 50 < 60. -/
def sSlip : VaultState :=
  ⟨1, 100, 0, [("bob", ((100, 0), 60))], [], 0, 0, [], [], false, false, false, false, 0⟩

/-- The state after `process_mints` on `sSlip`: only the supply changed. -/
def sSlipAfter : VaultState := { sSlip with supply := 51 }

/-- Supply 1 with alice queued for mint: funds (100 uatom, 0), no `min_out`;
aggregate (100, 0). -/
def sAlice : VaultState :=
  ⟨1, 100, 0, [("alice", ((100, 0), 0))], [], 0, 0, [], [], false, false, false, false, 0⟩

/-- The state after `execute_unlock` on `sAlice`: the per-account map was
cleared and the vault terminated, but the aggregate still records 100. -/
def sAliceAfterUnlock : VaultState :=
  { sAlice with accountsPendingMint := [], terminated := true }

/-- Supply 1 with bob queued without `min_out`; settles to 50 shares. -/
def sBob : VaultState :=
  ⟨1, 100, 0, [("bob", ((100, 0), 0))], [], 0, 0, [], [], false, false, false, false, 0⟩

/-- State `sBob` after the settlement `process_mints cfgA envAlmost sBob`. -/
def sBobSettled : VaultState :=
  { sBob with accountsPendingMint := [], pending0 := 0, supply := 51 }

/-- Two depositors queued at share price 2: bob (min_out 60, computed 50,
slips) and carol (min_out 10, computed 50, settles); aggregate (200, 0);
bank 202 so the liquid balance is 2. -/
def sTwo : VaultState :=
  ⟨1, 200, 0, [("bob", ((100, 0), 60)), ("carol", ((100, 0), 10))], [], 0, 0, [], [],
   false, false, false, false, 0⟩

/-- An empty, non-halted vault. -/
def sIdle : VaultState :=
  ⟨1, 0, 0, [], [], 0, 0, [], [], false, false, false, false, 0⟩

/-- Supply 5, alice queued to burn all 5 shares, position open
(`envBurn`: 60 total vs 10 liquid). -/
def sBurnAll : VaultState :=
  ⟨5, 0, 0, [], [("alice", 5)], 0, 0, [], [], false, false, false, true, 0⟩

/-- An open position with supply 5 and nothing queued. -/
def sPos : VaultState :=
  ⟨5, 0, 0, [], [], 0, 0, [], [], false, false, false, true, 0⟩

/-- A halted vault in which alice has a pending burn of 5 shares. -/
def sHaltedBurn : VaultState :=
  ⟨5, 0, 0, [], [("alice", 5)], 0, 0, [], [], false, true, false, false, 0⟩

/-- A non-halted vault in which alice has a pending burn of 5 shares. -/
def sPendingBurn : VaultState :=
  ⟨5, 0, 0, [], [("alice", 5)], 0, 0, [], [], false, false, false, false, 0⟩

/-- State for the commission-split witness: 500 uatom pending mint, no
commission collected yet, 2000 uatom in the bank (`envCommission`). -/
def sCommission : VaultState :=
  ⟨1, 500, 0, [], [], 0, 0, [], [], false, false, false, true, 0⟩

/-- Environment for the commission-split witness. -/
def envCommission : VaultEnv := ⟨0, 2000, 0, posRewarded, ⟨1, 0⟩, ⟨1, 0⟩, fun _ => 0⟩

/-- Environment for `sTwo`: bank 202, both assets at 1 dollar. -/
def envTwo : VaultEnv := ⟨0, 202, 0, posEmpty, ⟨1, 0⟩, ⟨1, 0⟩, fun _ => 0⟩

/-- State `sTwo` after `process_mints cfgA envTwo sTwo`: carol settled (50 shares),
bob left queued; note the supply grew by both computed amounts (100). -/
def sTwoAfter : VaultState :=
  { sTwo with accountsPendingMint := [("bob", ((100, 0), 60))],
              pending0 := 100, supply := 101 }

/-- Result of `collect_rewards cfgB sCommission posRewarded false`. -/
def outC6W : RewardsOut :=
  ⟨1000, 500, [⟨"ufoo", 77⟩], 10, 5, [Msg.collectIncentives 7]⟩

/-- Result of the `process_burns` loop on `sBurnAll` at totals (60, 0). -/
def accC2W : BurnAcc :=
  ⟨5, 60, 0, [Msg.bankSend "alice" [⟨"uatom", 60⟩]]⟩

/-- The denoms of a coin list. -/
def coinsDenoms (l : List Coin) : List String := l.map Coin.denom

-- Basic lemmas about the Outcome monad and the association-list helpers.

@[simp] theorem Outcome.ok_bind (a : α) (f : α → Outcome β) :
    Outcome.bind (.ok a) f = f a := rfl

@[simp] theorem Outcome.err_bind (e : ContractError) (f : α → Outcome β) :
    Outcome.bind (.err e) f = .err e := rfl

@[simp] theorem Outcome.panic_bind (f : α → Outcome β) :
    Outcome.bind .panic f = .panic := rfl

theorem alistLookup_of_mem_nodup [DecidableEq κ] {l : List (κ × β)} {a : κ} {v : β}
    (hnd : (alistKeys l).Nodup) (hmem : (a, v) ∈ l) : alistLookup l a = some v := by
  induction l with
  | nil => cases hmem
  | cons e rest ih =>
    obtain ⟨k2, v2⟩ := e
    rw [alistKeys, List.map_cons] at hnd
    have hnd2 := List.nodup_cons.mp hnd
    rcases List.mem_cons.mp hmem with h | h
    · obtain ⟨hk, hv⟩ := Prod.mk.injEq .. ▸ h.symm
      simp [alistLookup, hk, hv]
    · have hne : k2 ≠ a := by
        intro he
        exact hnd2.1 (he ▸ (List.mem_map.mpr ⟨(a, v), h, rfl⟩))
      simp only [alistLookup, if_neg hne]
      exact ih hnd2.2 h

theorem alist_entry_unique [DecidableEq κ] {l : List (κ × β)}
    (hnd : (alistKeys l).Nodup) {e1 e2 : κ × β} (h1 : e1 ∈ l) (h2 : e2 ∈ l)
    (hk : e1.1 = e2.1) : e1 = e2 := by
  have l1 : alistLookup l e1.1 = some e1.2 := alistLookup_of_mem_nodup hnd h1
  have l2 : alistLookup l e2.1 = some e2.2 := alistLookup_of_mem_nodup hnd h2
  rw [hk, l2] at l1
  exact Prod.ext hk (Option.some.injEq .. ▸ l1).symm

theorem alistLookup_remove_ne [DecidableEq κ] {l : List (κ × β)} {k a : κ}
    (h : k ≠ a) : alistLookup (alistRemove l k) a = alistLookup l a := by
  induction l with
  | nil => rfl
  | cons e rest ih =>
    obtain ⟨k2, v2⟩ := e
    by_cases hk : k2 = k
    · have hne : k2 ≠ a := fun he => h (hk ▸ he.symm ▸ rfl)
      simp only [alistRemove, if_pos hk, alistLookup, if_neg hne, ih]
    · simp only [alistRemove, if_neg hk, alistLookup]
      by_cases ha : k2 = a
      · simp [ha]
      · simp only [if_neg ha, ih]

theorem alistLookup_removeEntryKeys {entries : List (Addr × ((Nat × Nat) × Nat))}
    {a : Addr} (h : ∀ e ∈ entries, e.1 ≠ a) :
    ∀ l, alistLookup (removeEntryKeys l entries) a = alistLookup l a := by
  induction entries with
  | nil => intro l; rfl
  | cons e rest ih =>
    intro l
    have heq : removeEntryKeys l (e :: rest) = removeEntryKeys (alistRemove l e.1) rest := rfl
    rw [heq, ih (fun x hx => h x (List.mem_cons_of_mem e hx)),
        alistLookup_remove_ne (h e (List.mem_cons_self e rest))]

/-- Case analysis of a successful `mintStep`: either the entry settled
(min_out met; the accumulator's aggregate was debited by the entry's funds,
the entry removed, and a mint message appended when nonzero) or it slipped
(only the running totals changed). -/
theorem mintStep_ok {cfg : VaultConfig} {pr : Pricing} {acc : MintAcc}
    {e : Addr × ((Nat × Nat) × Nat)} {acc1 : MintAcc}
    (h : mintStep cfg pr acc e = .ok acc1) :
    (e.2.2 ≤ toMintOf pr e.2.1.1 e.2.1.2 ∧ e.2.1.1 ≤ acc.pending0 ∧
      e.2.1.2 ≤ acc.pending1 ∧
      acc1 = ⟨alistRemove acc.map e.1, acc.pending0 - e.2.1.1, acc.pending1 - e.2.1.2,
              acc.totalMinted + toMintOf pr e.2.1.1 e.2.1.2,
              acc.totalDollars + (e.2.1.1 * pr.price0 + e.2.1.2 * pr.price1),
              acc.msgs ++
                (if toMintOf pr e.2.1.1 e.2.1.2 = 0 then []
                 else [Msg.mint cfg.vaultDenom (toMintOf pr e.2.1.1 e.2.1.2) e.1])⟩) ∨
    (¬ e.2.2 ≤ toMintOf pr e.2.1.1 e.2.1.2 ∧
      acc1 = { acc with
                 totalMinted := acc.totalMinted + toMintOf pr e.2.1.1 e.2.1.2,
                 totalDollars :=
                   acc.totalDollars + (e.2.1.1 * pr.price0 + e.2.1.2 * pr.price1) }) := by
  unfold mintStep at h
  split at h
  · exact absurd h (by simp)
  · split at h
    next hcond =>
      unfold subOrPanic at h
      split at h
      next hle0 =>
        simp only [Outcome.ok_bind] at h
        split at h
        next hle1 =>
          simp only [Outcome.ok_bind] at h
          exact Or.inl ⟨hcond, hle0, hle1, (Outcome.ok.inj h).symm⟩
        next => exact absurd h (by simp)
      next => exact absurd h (by simp)
    next hcond =>
      exact Or.inr ⟨hcond, (Outcome.ok.inj h).symm⟩

/-- Characterisation of a successful `process_mints` loop: the final map is
the initial map minus the settled keys, the aggregate is debited by exactly
the settled entries' funds (which never underflows), and the messages are
the settled entries' nonzero mints. -/
theorem mintLoop_spec (cfg : VaultConfig) (pr : Pricing) :
    ∀ (entries : List (Addr × ((Nat × Nat) × Nat))) (acc acc2 : MintAcc),
      mintLoop cfg pr entries acc = .ok acc2 →
      acc2.map = removeEntryKeys acc.map (settledEntries pr entries) ∧
      pendingSum0 (settledEntries pr entries) ≤ acc.pending0 ∧
      acc2.pending0 = acc.pending0 - pendingSum0 (settledEntries pr entries) ∧
      pendingSum1 (settledEntries pr entries) ≤ acc.pending1 ∧
      acc2.pending1 = acc.pending1 - pendingSum1 (settledEntries pr entries) ∧
      acc2.msgs = acc.msgs ++ mintMsgsOf cfg pr (settledEntries pr entries) := by
  intro entries
  induction entries with
  | nil =>
    intro acc acc2 h
    have hacc : acc2 = acc := (Outcome.ok.inj h).symm
    simp [hacc, settledEntries, removeEntryKeys, pendingSum0, pendingSum1, mintMsgsOf]
  | cons e rest ih =>
    intro acc acc2 h
    unfold mintLoop at h
    cases hstep : mintStep cfg pr acc e with
    | err er => rw [hstep] at h; cases h
    | panic => rw [hstep] at h; cases h
    | ok accMid =>
      rw [hstep] at h
      rcases mintStep_ok hstep with ⟨hcond, hle0, hle1, hmid⟩ | ⟨hcond, hmid⟩
      · have hset : settledEntries pr (e :: rest) = e :: settledEntries pr rest := by
          simp [settledEntries, List.filter_cons, hcond]
        obtain ⟨m1, s0le, p0, s1le, p1, ms⟩ := ih accMid acc2 h
        subst hmid
        refine ⟨?_, ?_, ?_, ?_, ?_, ?_⟩
        · rw [hset, m1]; rfl
        · rw [hset]
          simp only [pendingSum0, List.map_cons, List.sum_cons]
          simp only [pendingSum0] at s0le
          omega
        · rw [hset]
          simp only [pendingSum0, List.map_cons, List.sum_cons]
          simp only [pendingSum0] at s0le p0
          omega
        · rw [hset]
          simp only [pendingSum1, List.map_cons, List.sum_cons]
          simp only [pendingSum1] at s1le
          omega
        · rw [hset]
          simp only [pendingSum1, List.map_cons, List.sum_cons]
          simp only [pendingSum1] at s1le p1
          omega
        · rw [hset, ms]
          simp only [mintMsgsOf, List.filterMap_cons]
          split
          next ht => simp [ht, List.append_assoc]
          next ht => simp [ht, List.append_assoc]
      · have hset : settledEntries pr (e :: rest) = settledEntries pr rest := by
          simp [settledEntries, List.filter_cons, hcond]
        obtain ⟨m1, s0le, p0, s1le, p1, ms⟩ := ih accMid acc2 h
        subst hmid
        rw [hset] at *
        exact ⟨m1, s0le, p0, s1le, p1, ms⟩

/-- Claim C7 (confirmed): slippage rejection frame.  For every depositor in
a mint settlement whose computed shares are strictly below their
minimum-shares-out, `process_mints` emits no mint message for that
depositor, leaves their pending-mint map entry intact, and debits the
aggregate pending-mint amounts only by the settled entries' funds — none of
which are the slipped depositor's (so the aggregate amounts attributable to
their funds are unchanged). -/
theorem c7_slippage_rejection_frame (cfg : VaultConfig) (ev : VaultEnv)
    (s : VaultState) (bal : Nat × Nat) (pr : Pricing) (a : Addr) (c0 c1 m : Nat)
    (s2 : VaultState) (msgs : List Msg)
    (hnd : (alistKeys s.accountsPendingMint).Nodup)
    (hmem : (a, ((c0, c1), m)) ∈ s.accountsPendingMint)
    (hbal : get_vault_balances cfg ev s true = .ok bal)
    (hpr : get_vault_pricing cfg ev s bal.1 bal.2 = .ok pr)
    (hslip : toMintOf pr c0 c1 < m)
    (hok : process_mints cfg ev s = .ok (s2, msgs)) :
    alistLookup s2.accountsPendingMint a = some ((c0, c1), m) ∧
    (∀ amt, Msg.mint cfg.vaultDenom amt a ∉ msgs) ∧
    s2.pending0 = s.pending0 - pendingSum0 (settledEntries pr s.accountsPendingMint) ∧
    s2.pending1 = s.pending1 - pendingSum1 (settledEntries pr s.accountsPendingMint) ∧
    (∀ e ∈ settledEntries pr s.accountsPendingMint, e.1 ≠ a) := by
  have hne : s.accountsPendingMint ≠ [] := by
    intro hnil
    rw [hnil] at hmem
    cases hmem
  have hsettledNe : ∀ e ∈ settledEntries pr s.accountsPendingMint, e.1 ≠ a := by
    intro e he hea
    obtain ⟨heMem, heCond⟩ := List.mem_filter.mp he
    have heEq : e = (a, ((c0, c1), m)) :=
      alist_entry_unique hnd heMem hmem (by rw [hea])
    rw [heEq] at heCond
    exact absurd (of_decide_eq_true heCond) (Nat.not_le.mpr hslip)
  unfold process_mints at hok
  rw [if_neg hne, hbal] at hok
  simp only [Outcome.ok_bind] at hok
  rw [hpr] at hok
  simp only [Outcome.ok_bind] at hok
  cases hml : mintLoop cfg pr s.accountsPendingMint
      ⟨s.accountsPendingMint, s.pending0, s.pending1, 0, pr.totalDollars, []⟩ with
  | err er => rw [hml] at hok; cases hok
  | panic => rw [hml] at hok; cases hok
  | ok acc =>
    rw [hml] at hok
    simp only [Outcome.ok_bind] at hok
    have hpair := Outcome.ok.inj hok
    simp only [Prod.mk.injEq] at hpair
    obtain ⟨hs2, hmsgs⟩ := hpair
    obtain ⟨hmap, hle0, hp0, hle1, hp1, hms⟩ :=
      mintLoop_spec cfg pr s.accountsPendingMint _ acc hml
    refine ⟨?_, ?_, ?_, ?_, hsettledNe⟩
    · have : s2.accountsPendingMint = acc.map := by rw [← hs2]
      rw [this, hmap, alistLookup_removeEntryKeys hsettledNe]
      exact alistLookup_of_mem_nodup hnd hmem
    · intro amt hin
      rw [← hmsgs, hms] at hin
      simp only [List.nil_append, mintMsgsOf] at hin
      obtain ⟨e, heMem, heEq⟩ := List.mem_filterMap.mp hin
      revert heEq
      split
      · intro heEq; cases heEq
      · intro heEq
        have : e.1 = a := (Msg.mint.inj (Option.some.inj heEq)).2.2
        exact hsettledNe e heMem this
    · have : s2.pending0 = acc.pending0 := by rw [← hs2]
      rw [this, hp0]
    · have : s2.pending1 = acc.pending1 := by rw [← hs2]
      rw [this, hp1]

/-- Witness for claim C7 at a concrete input: bob (min_out 60, computed 50)
slips while carol settles; bob's entry and aggregate share stay intact and
no mint message names bob. -/
theorem c7_slippage_rejection_frame_witness :
    ((alistKeys sTwo.accountsPendingMint).Nodup ∧
     ("bob", ((100, 0), 60)) ∈ sTwo.accountsPendingMint ∧
     get_vault_balances cfgA envTwo sTwo true = .ok (2, 0) ∧
     get_vault_pricing cfgA envTwo sTwo 2 0 = .ok ⟨2, 1, 1, 2⟩ ∧
     toMintOf ⟨2, 1, 1, 2⟩ 100 0 < 60 ∧
     process_mints cfgA envTwo sTwo
       = .ok (sTwoAfter, [Msg.mint cfgA.vaultDenom 50 "carol"])) ∧
    (alistLookup sTwoAfter.accountsPendingMint "bob" = some ((100, 0), 60) ∧
     (∀ amt, Msg.mint cfgA.vaultDenom amt "bob" ∉ [Msg.mint cfgA.vaultDenom 50 "carol"]) ∧
     sTwoAfter.pending0
       = sTwo.pending0 - pendingSum0 (settledEntries ⟨2, 1, 1, 2⟩ sTwo.accountsPendingMint) ∧
     sTwoAfter.pending1
       = sTwo.pending1 - pendingSum1 (settledEntries ⟨2, 1, 1, 2⟩ sTwo.accountsPendingMint) ∧
     (∀ e ∈ settledEntries ⟨2, 1, 1, 2⟩ sTwo.accountsPendingMint, e.1 ≠ "bob")) :=
  ⟨⟨by decide, by decide, by decide, by decide, by decide, by decide⟩,
   c7_slippage_rejection_frame cfgA envTwo sTwo (2, 0) ⟨2, 1, 1, 2⟩ "bob" 100 0 60
     sTwoAfter [Msg.mint cfgA.vaultDenom 50 "carol"]
     (by decide) (by decide) (by decide) (by decide) (by decide) (by decide)⟩

/-- Claim C1 (code bug): the conservation invariant — the sum of the
per-depositor pending-mint entries equals the aggregate — holds before
`execute_unlock` but not after: the source clears `ACCOUNTS_PENDING_MINT`
(refunding the depositors) without zeroing `ASSETS_PENDING_MINT`, so the
aggregate still records 100 while the map is empty. -/
theorem c1_unlock_breaks_pending_mint_conservation :
    mintConservation sAlice ∧
    execute_unlock cfgA envFresh sAlice "op"
      = .ok (sAliceAfterUnlock, [Msg.bankSend "alice" [⟨"uatom", 100⟩]]) ∧
    sAliceAfterUnlock.accountsPendingMint = [] ∧
    sAliceAfterUnlock.pending0 = 100 ∧
    ¬ mintConservation sAliceAfterUnlock :=
  ⟨by decide, by decide, by decide, by decide, by decide⟩

/-- Claim C3 (code bug): in `process_mints`, `total_minted += to_mint` runs
also for a depositor skipped for slippage: with bob alone in the queue
(computed shares 50, min_out 60) no mint message is emitted and bob stays
queued, yet the supply grows by 50. -/
theorem c3_slippage_inflates_supply :
    process_mints cfgA envFresh sSlip = .ok (sSlipAfter, []) ∧
    sSlipAfter.supply = sSlip.supply + 50 ∧
    sSlipAfter.accountsPendingMint = sSlip.accountsPendingMint ∧
    sSlipAfter.pending0 = sSlip.pending0 ∧
    toMintOf ⟨2, 1, 1, 2⟩ 100 0 = 50 ∧ (50 : Nat) < 60 :=
  ⟨by decide, by decide, by decide, by decide, by decide, by decide⟩

/-- Claim C4 (code bug): `LAST_UPDATE` is written only at instantiation, so
a state-changing operator action (here a settling `process_mints` one second
before the dead-man interval elapses) does not reset the interval, and a
non-operator `Unlock` succeeds immediately afterwards. -/
theorem c4_dead_man_switch_ignores_operator_actions :
    process_mints cfgA envAlmost sBob
      = .ok (sBobSettled, [Msg.mint cfgA.vaultDenom 50 "bob"]) ∧
    sBobSettled ≠ sBob ∧
    sBobSettled.lastUpdate = sBob.lastUpdate ∧
    ("stranger" : Addr) ≠ cfgA.operator ∧
    envElapsed.now = envAlmost.now + 1 ∧
    (execute_unlock cfgA envElapsed sBobSettled "stranger").isOk = true :=
  ⟨by decide, by decide, by decide, by decide, by decide, by decide⟩

/-- Claim C8 (code bug): a `Deposit::Burn` call without a forced-exit
address and with empty funds panics (the source indexes `info.funds[0]`
before any validation) instead of returning the typed `NoFunds` error that
`verify_burn_funds` would produce for the same input. -/
theorem c8_empty_burn_funds_panic :
    sIdle.halted = false ∧
    execute_deposit_for_burn cfgA envFresh sIdle "alice" none none [] = .panic ∧
    verify_burn_funds cfgA [] = .err .noFunds :=
  ⟨by decide, by decide, by decide⟩

/-- Counterexample to claim C9: a `WithdrawPosition` call for 500 of the
position's 1000 liquidity (partial) still clears `position_open`. -/
theorem c9_partial_withdraw_clears_flag :
    sPos.positionOpen = true ∧
    envBurn.position.liquidity = "1000" ∧
    execute_withdraw_position cfgA envBurn sPos "op" 7 "500" none
      = .ok ({ sPos with positionOpen := false }, [Msg.withdrawPosition 7 "500"]) ∧
    ("500" : String) ≠ envBurn.position.liquidity :=
  ⟨by decide, by decide, by decide, by decide⟩

/-- Claim C9 as amended: every successful `WithdrawPosition` call clears the
`position_open` flag, whether the withdrawal is partial or full — the
source stores `false` unconditionally and never inspects the liquidity
amount. -/
theorem c9_withdraw_position_always_clears_flag (cfg : VaultConfig)
    (ev : VaultEnv) (s : VaultState) (sender : Addr) (positionId : Nat)
    (liquidityAmount : String) (ov : Option Bool) (s2 : VaultState)
    (msgs : List Msg)
    (h : execute_withdraw_position cfg ev s sender positionId liquidityAmount ov
          = .ok (s2, msgs)) :
    s2.positionOpen = false := by
  unfold execute_withdraw_position at h
  split at h
  · cases h
  · split at h
    · cases h
    · cases hcr : collect_rewards cfg s ev.position (ov.getD false) with
      | err er => rw [hcr] at h; cases h
      | panic => rw [hcr] at h; cases h
      | ok rwds =>
        rw [hcr] at h
        simp only [Outcome.ok_bind] at h
        have hpair := Outcome.ok.inj h
        simp only [Prod.mk.injEq] at hpair
        rw [← hpair.1]

/-- Witness for the amended claim C9 at a full withdrawal. -/
theorem c9_withdraw_clears_flag_witness :
    execute_withdraw_position cfgA envBurn sPos "op" 7 "1000" none
      = .ok ({ sPos with positionOpen := false }, [Msg.withdrawPosition 7 "1000"]) ∧
    ({ sPos with positionOpen := false } : VaultState).positionOpen = false :=
  ⟨by decide,
   c9_withdraw_position_always_clears_flag cfgA envBurn sPos "op" 7 "1000" none
     { sPos with positionOpen := false } [Msg.withdrawPosition 7 "1000"] (by decide)⟩

/-- Counterexample to claim C10: in a halted vault, a `Deposit::Mint` call
from alice — who has a pending burn — is rejected with `VaultHalted`, not
with `AccountPendingBurn` as the claim states. -/
theorem c10_halted_vault_rejects_with_other_error :
    (alistLookup sHaltedBurn.accountsPendingBurn "alice").isSome = true ∧
    execute_deposit_for_mint cfgA sHaltedBurn "alice" [⟨"uatom", 10⟩] none
      = .err .vaultHalted ∧
    ContractError.vaultHalted ≠ ContractError.accountPendingBurn "alice" :=
  ⟨by decide, by decide, by decide⟩

/-- Claim C10 as amended: a `Deposit::Mint` call from a sender with a
pending-burn entry is always rejected with a typed error before any queue
or aggregate mutation; the error is `AccountPendingBurn` provided the vault
is not terminated or halted and the cap gate does not reject the sender
first.  Hence no address can hold a pending mint and a pending burn created
in that order. -/
theorem c10_pending_burn_blocks_mint (cfg : VaultConfig) (s : VaultState)
    (sender : Addr) (funds : List Coin) (minOut : Option Nat)
    (h : (alistLookup s.accountsPendingBurn sender).isSome = true) :
    (execute_deposit_for_mint cfg s sender funds minOut).isErr = true ∧
    (s.terminated = false → s.halted = false →
      (s.capReached = true → s.whitelist.contains sender = true) →
      execute_deposit_for_mint cfg s sender funds minOut
        = .err (.accountPendingBurn sender)) := by
  constructor
  · unfold execute_deposit_for_mint
    split
    · rfl
    · split
      · rfl
      · split
        · rfl
        · rfl
  · intro ht hh hc
    unfold execute_deposit_for_mint
    rw [if_neg, if_neg, if_neg, if_pos h]
    · intro hcap
      rw [Bool.and_eq_true] at hcap
      rw [hc (by simpa using hcap.1), Bool.not_true] at hcap
      cases hcap.2
    · rw [hh]
      simp
    · rw [ht]
      simp

/-- Witness for the amended claim C10: in an active vault alice's pending
burn makes her mint deposit fail with `AccountPendingBurn`. -/
theorem c10_pending_burn_blocks_mint_witness :
    (alistLookup sPendingBurn.accountsPendingBurn "alice").isSome = true ∧
    ((execute_deposit_for_mint cfgA sPendingBurn "alice" [⟨"uatom", 10⟩] none).isErr = true ∧
     (sPendingBurn.terminated = false → sPendingBurn.halted = false →
       (sPendingBurn.capReached = true → sPendingBurn.whitelist.contains "alice" = true) →
       execute_deposit_for_mint cfgA sPendingBurn "alice" [⟨"uatom", 10⟩] none
         = .err (.accountPendingBurn "alice"))) :=
  ⟨by decide,
   c10_pending_burn_blocks_mint cfgA sPendingBurn "alice" [⟨"uatom", 10⟩] none (by decide)⟩

/-- Claim C2 (confirmed): burn-batch atomicity.  Whenever the distribution
totals computed by the `process_burns` loop exceed the vault's liquid
balance of either asset, `process_burns` returns the `CantProcessBurn`
error: the supply update, the queue clearing and every other state write
come strictly after this check, so the whole settlement aborts with no
state change. -/
theorem c2_burn_batch_atomicity (cfg : VaultConfig) (ev : VaultEnv)
    (s : VaultState) (t l : Nat × Nat) (acc : BurnAcc)
    (hne : s.accountsPendingBurn ≠ [])
    (ht : get_vault_balances cfg ev s true = .ok t)
    (hloop : burnLoop cfg s.supply t.1 t.2 s.accountsPendingBurn ⟨0, 0, 0, []⟩ = .ok acc)
    (hl : get_vault_balances cfg ev s false = .ok l)
    (hex : acc.dist0 > l.1 ∨ acc.dist1 > l.2) :
    process_burns cfg ev s = .err .cantProcessBurn := by
  unfold process_burns
  rw [if_neg hne, ht]
  simp only [Outcome.ok_bind]
  rw [hloop]
  simp only [Outcome.ok_bind]
  rw [hl]
  simp only [Outcome.ok_bind]
  rw [if_pos hex]

/-- Witness for claim C2: alice burns all 5 shares; the snapshot totals are
(60, 0) (bank 10 plus position 50) but only 10 is liquid, so the batch
fails atomically. -/
theorem c2_burn_batch_atomicity_witness :
    (sBurnAll.accountsPendingBurn ≠ [] ∧
     get_vault_balances cfgA envBurn sBurnAll true = .ok (60, 0) ∧
     burnLoop cfgA sBurnAll.supply 60 0 sBurnAll.accountsPendingBurn ⟨0, 0, 0, []⟩
       = .ok accC2W ∧
     get_vault_balances cfgA envBurn sBurnAll false = .ok (10, 0) ∧
     accC2W.dist0 > 10) ∧
    process_burns cfgA envBurn sBurnAll = .err .cantProcessBurn :=
  ⟨⟨by decide, by decide, by decide, by decide, by decide⟩,
   c2_burn_batch_atomicity cfgA envBurn sBurnAll (60, 0) (10, 0) accC2W
     (by decide) (by decide) (by decide) (by decide) (Or.inl (by decide))⟩

/-- Claim C5 (confirmed): price-staleness gate.  When the latest oracle
update for either vault asset is older than the configured expiry relative
to the block time, any attempted mint settlement fails with the stale-price
error before any state write (queues, aggregates, supply and the cap flag
are only written after pricing succeeds). -/
theorem c5_stale_price_gate (cfg : VaultConfig) (ev : VaultEnv)
    (s : VaultState) (bal : Nat × Nat)
    (hne : s.accountsPendingMint ≠ [])
    (hbal : get_vault_balances cfg ev s true = .ok bal)
    (hstale : ev.feed0.publishTime < (ev.now : Int) - (cfg.priceExpiry : Int)
            ∨ ev.feed1.publishTime < (ev.now : Int) - (cfg.priceExpiry : Int)) :
    process_mints cfg ev s = .err (.std (.stalePrice cfg.priceExpiry)) := by
  have hpr : get_vault_pricing cfg ev s bal.1 bal.2
      = .err (.std (.stalePrice cfg.priceExpiry)) := by
    unfold get_vault_pricing get_asset_prices query_asset_price
    rcases hstale with h0 | h1
    · rw [if_pos h0]
      rfl
    · by_cases h0 : ev.feed0.publishTime < (ev.now : Int) - (cfg.priceExpiry : Int)
      · rw [if_pos h0]
        rfl
      · rw [if_neg h0]
        simp only [Outcome.ok_bind]
        rw [if_pos h1]
        rfl
  unfold process_mints
  rw [if_neg hne, hbal]
  simp only [Outcome.ok_bind]
  rw [hpr]
  rfl

/-- Witness for claim C5: at block time 1000 with a 60-second expiry, a feed
last updated at 900 makes the settlement of bob's queued deposit fail with
the stale-price error. -/
theorem c5_stale_price_gate_witness :
    (sBob.accountsPendingMint ≠ [] ∧
     get_vault_balances cfgA envStale sBob true = .ok (2, 0) ∧
     envStale.feed0.publishTime < (envStale.now : Int) - (cfgA.priceExpiry : Int)) ∧
    process_mints cfgA envStale sBob = .err (.std (.stalePrice cfgA.priceExpiry)) :=
  ⟨⟨by decide, by decide, by decide⟩,
   c5_stale_price_gate cfgA envStale sBob (2, 0) (by decide) (by decide)
     (Or.inl (by decide))⟩

-- Lemmas about `Coins` aggregation and the reward-split loop.

theorem coinsAmountOf_coinsAdd (l : List Coin) (c : Coin) (d : String) :
    coinsAmountOf (coinsAdd l c) d
      = coinsAmountOf l d + (if c.denom = d then c.amount else 0) := by
  induction l with
  | nil =>
    by_cases hc : c.denom = d <;> simp [coinsAdd, coinsAmountOf, hc]
  | cons e rest ih =>
    unfold coinsAdd
    by_cases he : e.denom = c.denom
    · rw [if_pos he]
      by_cases hd : e.denom = d
      · have hcd : c.denom = d := he ▸ hd
        simp only [coinsAmountOf, if_pos hd, if_pos hcd]
        omega
      · have hcd : ¬ c.denom = d := he ▸ hd
        simp only [coinsAmountOf, if_neg hd, if_neg hcd]
        omega
    · rw [if_neg he]
      by_cases hd : e.denom = d
      · simp only [coinsAmountOf, if_pos hd, ih]
        omega
      · simp only [coinsAmountOf, if_neg hd, ih]

theorem coinsAmountOf_coinsAddAll (cs : List Coin) :
    ∀ (init : List Coin) (d : String),
      coinsAmountOf (coinsAddAll init cs) d
        = coinsAmountOf init d + coinsAmountOf cs d := by
  induction cs with
  | nil => intro init d; simp [coinsAddAll, coinsAmountOf]
  | cons c rest ih =>
    intro init d
    have hstep : coinsAddAll init (c :: rest) = coinsAddAll (coinsAdd init c) rest := rfl
    rw [hstep, ih, coinsAmountOf_coinsAdd]
    simp only [coinsAmountOf]
    by_cases hd : c.denom = d
    · simp only [if_pos hd]
      omega
    · simp only [if_neg hd]
      omega

theorem mem_coinsDenoms_coinsAdd {x : String} {l : List Coin} {c : Coin} :
    x ∈ coinsDenoms (coinsAdd l c) ↔ x ∈ coinsDenoms l ∨ x = c.denom := by
  induction l with
  | nil => simp [coinsAdd, coinsDenoms, eq_comm]
  | cons e rest ih =>
    unfold coinsAdd
    by_cases he : e.denom = c.denom
    · rw [if_pos he]
      simp only [coinsDenoms, List.map_cons, List.mem_cons]
      constructor
      · intro h
        exact Or.inl (by simpa [coinsDenoms] using h)
      · intro h
        rcases h with h | h
        · simpa [coinsDenoms] using h
        · exact Or.inl (h.trans he.symm)
    · rw [if_neg he]
      simp only [coinsDenoms, List.map_cons, List.mem_cons] at *
      constructor
      · intro h
        rcases h with h | h
        · exact Or.inl (Or.inl h)
        · rcases ih.mp (by simpa [coinsDenoms] using h) with h2 | h2
          · exact Or.inl (Or.inr (by simpa [coinsDenoms] using h2))
          · exact Or.inr h2
      · intro h
        rcases h with (h | h) | h
        · exact Or.inl h
        · exact Or.inr (by simpa [coinsDenoms] using ih.mpr (Or.inl (by simpa [coinsDenoms] using h)))
        · exact Or.inr (by simpa [coinsDenoms] using ih.mpr (Or.inr h))

theorem coinsDenoms_nodup_coinsAdd {l : List Coin} {c : Coin}
    (h : (coinsDenoms l).Nodup) : (coinsDenoms (coinsAdd l c)).Nodup := by
  induction l with
  | nil => simp [coinsAdd, coinsDenoms]
  | cons e rest ih =>
    have h2 : e.denom ∉ coinsDenoms rest ∧ (coinsDenoms rest).Nodup :=
      List.nodup_cons.mp h
    unfold coinsAdd
    by_cases he : e.denom = c.denom
    · rw [if_pos he]
      simpa [coinsDenoms] using h
    · rw [if_neg he]
      simp only [coinsDenoms, List.map_cons]
      refine List.nodup_cons.mpr ⟨?_, ih h2.2⟩
      intro hin
      rcases mem_coinsDenoms_coinsAdd.mp (by simpa [coinsDenoms] using hin) with hmem | heq
      · exact h2.1 (by simpa [coinsDenoms] using hmem)
      · exact he heq

theorem rewardCoins_denoms_nodup (pos : PositionInfo) :
    (coinsDenoms (rewardCoinsOf pos)).Nodup := by
  have base : ∀ (cs init : List Coin), (coinsDenoms init).Nodup →
      (coinsDenoms (coinsAddAll init cs)).Nodup := by
    intro cs
    induction cs with
    | nil => intro init h; exact h
    | cons c rest ih =>
      intro init h
      exact ih _ (coinsDenoms_nodup_coinsAdd h)
  exact base _ _ (base _ [] (by simp [coinsDenoms]))

theorem filter_denom_single {l : List Coin} {d : String} {r : Nat}
    (hnd : (coinsDenoms l).Nodup) (hmem : (⟨d, r⟩ : Coin) ∈ l) :
    l.filter (fun c => decide (c.denom = d)) = [⟨d, r⟩] := by
  induction l with
  | nil => cases hmem
  | cons e rest ih =>
    have hnd2 : e.denom ∉ coinsDenoms rest ∧ (coinsDenoms rest).Nodup :=
      List.nodup_cons.mp hnd
    rcases List.mem_cons.mp hmem with p | p
    · have hrest : rest.filter (fun c => decide (c.denom = d)) = [] := by
        rw [List.filter_eq_nil_iff]
        intro x hx
        simp only [decide_eq_true_eq]
        intro he
        exact hnd2.1 (by
          rw [← p]
          exact he ▸ List.mem_map.mpr ⟨x, hx, rfl⟩)
      rw [← p]
      simp [List.filter_cons, hrest]
    · have hed : ¬ e.denom = d := by
        intro he
        refine hnd2.1 ?_
        rw [he]
        exact List.mem_map.mpr ⟨⟨d, r⟩, p, rfl⟩
      simp only [List.filter_cons, decide_eq_true_eq, if_neg hed]
      exact ih hnd2.2 p

theorem rewardSplitLoop_commission0 (cfg : VaultConfig) :
    ∀ (l : List Coin) (acc : RewardAcc),
      (rewardSplitLoop cfg l acc).commission0
        = acc.commission0 +
          ((l.filter (fun c => decide (c.denom = cfg.denom0))).map
            (fun c => mulFloor c.amount cfg.commissionRate)).sum := by
  intro l
  induction l with
  | nil => intro acc; simp [rewardSplitLoop]
  | cons c rest ih =>
    intro acc
    unfold rewardSplitLoop
    by_cases h0 : c.denom = cfg.denom0
    · rw [if_pos h0, ih]
      simp only [List.filter_cons, decide_eq_true_eq, if_pos h0, List.map_cons,
        List.sum_cons]
      omega
    · rw [if_neg h0]
      by_cases h1 : c.denom = cfg.denom1
      · rw [if_pos h1, ih]
        simp [List.filter_cons, h0]
      · rw [if_neg h1, ih]
        simp [List.filter_cons, h0]

theorem rewardSplitLoop_amount0_const (cfg : VaultConfig) :
    ∀ (l : List Coin) (acc : RewardAcc),
      (∀ c ∈ l, c.denom ≠ cfg.denom0) →
      (rewardSplitLoop cfg l acc).amount0 = acc.amount0 := by
  intro l
  induction l with
  | nil => intro acc _; rfl
  | cons c rest ih =>
    intro acc h
    unfold rewardSplitLoop
    rw [if_neg (h c (List.mem_cons_self c rest))]
    by_cases h1 : c.denom = cfg.denom1
    · rw [if_pos h1]
      exact ih _ (fun x hx => h x (List.mem_cons_of_mem c hx))
    · rw [if_neg h1]
      exact ih _ (fun x hx => h x (List.mem_cons_of_mem c hx))

theorem rewardSplitLoop_amount0 (cfg : VaultConfig) {l : List Coin} {r : Nat}
    (hnd : (coinsDenoms l).Nodup) (hmem : (⟨cfg.denom0, r⟩ : Coin) ∈ l) :
    ∀ acc, (rewardSplitLoop cfg l acc).amount0 = r := by
  induction l with
  | nil => cases hmem
  | cons c rest ih =>
    intro acc
    have hnd2 : c.denom ∉ coinsDenoms rest ∧ (coinsDenoms rest).Nodup :=
      List.nodup_cons.mp hnd
    rcases List.mem_cons.mp hmem with p | p
    · have hc : c.denom = cfg.denom0 := by rw [← p]
      unfold rewardSplitLoop
      rw [if_pos hc]
      have hrest : ∀ x ∈ rest, x.denom ≠ cfg.denom0 := by
        intro x hx he
        refine hnd2.1 ?_
        rw [hc, ← he]
        exact List.mem_map.mpr ⟨x, hx, rfl⟩
      rw [rewardSplitLoop_amount0_const cfg rest _ hrest]
      rw [← p]
    · have hc : ¬ c.denom = cfg.denom0 := by
        intro he
        refine hnd2.1 ?_
        rw [he]
        exact List.mem_map.mpr ⟨⟨cfg.denom0, r⟩, p, rfl⟩
      unfold rewardSplitLoop
      rw [if_neg hc]
      by_cases h1 : c.denom = cfg.denom1
      · rw [if_pos h1]
        exact ih hnd2.2 p _
      · rw [if_neg h1]
        exact ih hnd2.2 p _

theorem rewardSplitLoop_nonVault (cfg : VaultConfig) :
    ∀ (l : List Coin) (acc : RewardAcc) (d : String),
      d ≠ cfg.denom0 → d ≠ cfg.denom1 →
      coinsAmountOf (rewardSplitLoop cfg l acc).nonVault d
        = coinsAmountOf acc.nonVault d + coinsAmountOf l d := by
  intro l
  induction l with
  | nil => intro acc d _ _; simp [rewardSplitLoop, coinsAmountOf]
  | cons c rest ih =>
    intro acc d hd0 hd1
    unfold rewardSplitLoop
    by_cases h0 : c.denom = cfg.denom0
    · have hcd : ¬ c.denom = d := by
        rw [h0]
        exact fun he => hd0 he.symm
      rw [if_pos h0, ih _ d hd0 hd1]
      simp only [coinsAmountOf, if_neg hcd]
    · rw [if_neg h0]
      by_cases h1 : c.denom = cfg.denom1
      · have hcd : ¬ c.denom = d := by
          rw [h1]
          exact fun he => hd1 he.symm
        rw [if_pos h1, ih _ d hd0 hd1]
        simp only [coinsAmountOf, if_neg hcd]
      · rw [if_neg h1, ih _ d hd0 hd1, coinsAmountOf_coinsAdd]
        simp only [coinsAmountOf]
        by_cases hcd : c.denom = d
        · simp only [if_pos hcd]
          omega
        · simp only [if_neg hcd]
          omega

theorem rewardSplitLoop_commission1 (cfg : VaultConfig)
    (hne : cfg.denom0 ≠ cfg.denom1) :
    ∀ (l : List Coin) (acc : RewardAcc),
      (rewardSplitLoop cfg l acc).commission1
        = acc.commission1 +
          ((l.filter (fun c => decide (c.denom = cfg.denom1))).map
            (fun c => mulFloor c.amount cfg.commissionRate)).sum := by
  intro l
  induction l with
  | nil => intro acc; simp [rewardSplitLoop]
  | cons c rest ih =>
    intro acc
    unfold rewardSplitLoop
    by_cases h0 : c.denom = cfg.denom0
    · have h1 : ¬ c.denom = cfg.denom1 := by
        rw [h0]
        exact hne
      rw [if_pos h0, ih]
      simp [List.filter_cons, h1]
    · rw [if_neg h0]
      by_cases h1 : c.denom = cfg.denom1
      · rw [if_pos h1, ih]
        simp only [List.filter_cons, decide_eq_true_eq, if_pos h1, List.map_cons,
          List.sum_cons]
        omega
      · rw [if_neg h1, ih]
        simp [List.filter_cons, h1]

theorem rewardSplitLoop_amount1_const (cfg : VaultConfig) :
    ∀ (l : List Coin) (acc : RewardAcc),
      (∀ c ∈ l, c.denom ≠ cfg.denom1) →
      (rewardSplitLoop cfg l acc).amount1 = acc.amount1 := by
  intro l
  induction l with
  | nil => intro acc _; rfl
  | cons c rest ih =>
    intro acc h
    unfold rewardSplitLoop
    by_cases h0 : c.denom = cfg.denom0
    · rw [if_pos h0]
      exact ih _ (fun x hx => h x (List.mem_cons_of_mem c hx))
    · rw [if_neg h0, if_neg (h c (List.mem_cons_self c rest))]
      exact ih _ (fun x hx => h x (List.mem_cons_of_mem c hx))

theorem rewardSplitLoop_amount1 (cfg : VaultConfig)
    (hne : cfg.denom0 ≠ cfg.denom1) {l : List Coin} {r : Nat}
    (hnd : (coinsDenoms l).Nodup) (hmem : (⟨cfg.denom1, r⟩ : Coin) ∈ l) :
    ∀ acc, (rewardSplitLoop cfg l acc).amount1 = r := by
  induction l with
  | nil => cases hmem
  | cons c rest ih =>
    intro acc
    have hnd2 : c.denom ∉ coinsDenoms rest ∧ (coinsDenoms rest).Nodup :=
      List.nodup_cons.mp hnd
    rcases List.mem_cons.mp hmem with p | p
    · have hc1 : c.denom = cfg.denom1 := by rw [← p]
      have hc0 : ¬ c.denom = cfg.denom0 := by
        rw [hc1]
        exact fun he => hne he.symm
      unfold rewardSplitLoop
      rw [if_neg hc0, if_pos hc1]
      have hrest : ∀ x ∈ rest, x.denom ≠ cfg.denom1 := by
        intro x hx he
        refine hnd2.1 ?_
        rw [hc1, ← he]
        exact List.mem_map.mpr ⟨x, hx, rfl⟩
      rw [rewardSplitLoop_amount1_const cfg rest _ hrest]
      rw [← p]
    · have hc1 : ¬ c.denom = cfg.denom1 := by
        intro he
        refine hnd2.1 ?_
        rw [he]
        exact List.mem_map.mpr ⟨⟨cfg.denom1, r⟩, p, rfl⟩
      unfold rewardSplitLoop
      by_cases h0 : c.denom = cfg.denom0
      · rw [if_pos h0]
        exact ih hnd2.2 p _
      · rw [if_neg h0, if_neg hc1]
        exact ih hnd2.2 p _

/-- Claim C6 (confirmed): commission split on reward collection.  For every
reward coin whose denom equals a vault asset denom (either asset0 or
asset1) with amount `r`, `collect_rewards` adds `floor(r × commission_rate)`
to that asset's commission aggregate and reports the full amount into the
working balance, so the balance used by the subsequent availability check
(balance + reward − pending − commission) gains exactly the remainder
`r − floor(r × commission_rate)`; reward coins matching neither vault asset
are recorded in full into uncompounded rewards. -/
theorem c6_commission_split (cfg : VaultConfig) (ev : VaultEnv) (s : VaultState)
    (pos : PositionInfo) (ov : Bool) (out : RewardsOut)
    (hne : cfg.denom0 ≠ cfg.denom1)
    (hrate : cfg.commissionRate ≤ DEC18)
    (hbank0 : s.pending0 + s.commission0 ≤ ev.bank0)
    (hbank1 : s.pending1 + s.commission1 ≤ ev.bank1)
    (hok : collect_rewards cfg s pos ov = .ok out) :
    (∀ r, (⟨cfg.denom0, r⟩ : Coin) ∈ rewardCoinsOf pos →
      out.commission0 = s.commission0 + mulFloor r cfg.commissionRate ∧
      out.amount0 = r ∧
      (ev.bank0 + out.amount0) - (s.pending0 + out.commission0)
        = (ev.bank0 - (s.pending0 + s.commission0))
            + (r - mulFloor r cfg.commissionRate)) ∧
    (∀ r, (⟨cfg.denom1, r⟩ : Coin) ∈ rewardCoinsOf pos →
      out.commission1 = s.commission1 + mulFloor r cfg.commissionRate ∧
      out.amount1 = r ∧
      (ev.bank1 + out.amount1) - (s.pending1 + out.commission1)
        = (ev.bank1 - (s.pending1 + s.commission1))
            + (r - mulFloor r cfg.commissionRate)) ∧
    (∀ d, d ≠ cfg.denom0 → d ≠ cfg.denom1 →
      coinsAmountOf out.nonVault d
        = coinsAmountOf s.uncompoundedRewards d
            + coinsAmountOf (rewardCoinsOf pos) d) := by
  have hnd := rewardCoins_denoms_nodup pos
  have hfloor : ∀ r : Nat, mulFloor r cfg.commissionRate ≤ r := by
    intro r
    unfold mulFloor
    have hmd : r * DEC18 / DEC18 = r := by
      apply Nat.mul_div_cancel
      decide
    calc r * cfg.commissionRate / DEC18
        ≤ r * DEC18 / DEC18 := Nat.div_le_div_right (Nat.mul_le_mul_left r hrate)
      _ = r := hmd
  unfold collect_rewards at hok
  split at hok
  · cases hok
  · have hout : out
        = ⟨(rewardSplitLoop cfg (rewardCoinsOf pos)
              ⟨s.commission0, s.commission1, 0, 0,
               coinsAddAll [] s.uncompoundedRewards⟩).amount0,
           (rewardSplitLoop cfg (rewardCoinsOf pos)
              ⟨s.commission0, s.commission1, 0, 0,
               coinsAddAll [] s.uncompoundedRewards⟩).amount1,
           (rewardSplitLoop cfg (rewardCoinsOf pos)
              ⟨s.commission0, s.commission1, 0, 0,
               coinsAddAll [] s.uncompoundedRewards⟩).nonVault,
           (rewardSplitLoop cfg (rewardCoinsOf pos)
              ⟨s.commission0, s.commission1, 0, 0,
               coinsAddAll [] s.uncompoundedRewards⟩).commission0,
           (rewardSplitLoop cfg (rewardCoinsOf pos)
              ⟨s.commission0, s.commission1, 0, 0,
               coinsAddAll [] s.uncompoundedRewards⟩).commission1,
           (if pos.claimableIncentives ≠ [] then [Msg.collectIncentives pos.positionId]
            else []) ++
             (if pos.claimableSpreadRewards ≠ [] then
               [Msg.collectSpreadRewards pos.positionId]
              else [])⟩ := (Outcome.ok.inj hok).symm
    refine ⟨?_, ?_, ?_⟩
    · intro r hmem
      have h1 : out.commission0 = s.commission0 + mulFloor r cfg.commissionRate := by
        rw [hout]
        rw [rewardSplitLoop_commission0, filter_denom_single hnd hmem]
        simp
      have h2 : out.amount0 = r := by
        rw [hout]
        exact rewardSplitLoop_amount0 cfg hnd hmem _
      refine ⟨h1, h2, ?_⟩
      have hle := hfloor r
      rw [h1, h2]
      omega
    · intro r hmem
      have h1 : out.commission1 = s.commission1 + mulFloor r cfg.commissionRate := by
        rw [hout]
        rw [rewardSplitLoop_commission1 cfg hne, filter_denom_single hnd hmem]
        simp
      have h2 : out.amount1 = r := by
        rw [hout]
        exact rewardSplitLoop_amount1 cfg hne hnd hmem _
      refine ⟨h1, h2, ?_⟩
      have hle := hfloor r
      rw [h1, h2]
      omega
    · intro d hd0 hd1
      rw [hout]
      rw [rewardSplitLoop_nonVault cfg _ _ d hd0 hd1, coinsAmountOf_coinsAddAll]
      simp [coinsAmountOf]

/-- Witness for claim C6, matching the spec scenario on both assets: 1000
units of the asset0 denom at a 1% commission rate put 10 units into the
asset0 commission aggregate and leave 990 available (2490 = 1500 + 990),
500 units of the asset1 denom put 5 into the asset1 aggregate and leave 495
available, and the 77 ufoo units are recorded in full into uncompounded
rewards. -/
theorem c6_commission_split_witness :
    ((⟨"uatom", (1000 : Nat)⟩ : Coin) ∈ rewardCoinsOf posRewarded ∧
     (⟨"uosmo", (500 : Nat)⟩ : Coin) ∈ rewardCoinsOf posRewarded ∧
     collect_rewards cfgB sCommission posRewarded false = .ok outC6W) ∧
    (outC6W.commission0 = sCommission.commission0 + mulFloor 1000 cfgB.commissionRate ∧
     outC6W.amount0 = 1000 ∧
     (envCommission.bank0 + outC6W.amount0)
         - (sCommission.pending0 + outC6W.commission0)
       = (envCommission.bank0 - (sCommission.pending0 + sCommission.commission0))
           + (1000 - mulFloor 1000 cfgB.commissionRate)) ∧
    (outC6W.commission1 = sCommission.commission1 + mulFloor 500 cfgB.commissionRate ∧
     outC6W.amount1 = 500 ∧
     (envCommission.bank1 + outC6W.amount1)
         - (sCommission.pending1 + outC6W.commission1)
       = (envCommission.bank1 - (sCommission.pending1 + sCommission.commission1))
           + (500 - mulFloor 500 cfgB.commissionRate)) ∧
    (∀ d, d ≠ cfgB.denom0 → d ≠ cfgB.denom1 →
      coinsAmountOf outC6W.nonVault d
        = coinsAmountOf sCommission.uncompoundedRewards d
            + coinsAmountOf (rewardCoinsOf posRewarded) d) :=
  ⟨⟨by decide, by decide, by decide⟩,
   (c6_commission_split cfgB envCommission sCommission posRewarded false outC6W
     (by decide) (by decide) (by decide) (by decide) (by decide)).1 1000 (by decide),
   (c6_commission_split cfgB envCommission sCommission posRewarded false outC6W
     (by decide) (by decide) (by decide) (by decide) (by decide)).2.1 500 (by decide),
   (c6_commission_split cfgB envCommission sCommission posRewarded false outC6W
     (by decide) (by decide) (by decide) (by decide) (by decide)).2.2⟩

-- Supporting results (not tied to a single claim): the conservation
-- invariant is preserved by every queue-touching operation other than
-- `execute_unlock`, and the unlock gate inequality itself.

theorem sum_alistUpsert_none (f : ((Nat × Nat) × Nat) → Nat)
    {l : List (Addr × ((Nat × Nat) × Nat))} {k : Addr} {v : (Nat × Nat) × Nat}
    (h : alistLookup l k = none) :
    ((alistUpsert l k v).map (fun e => f e.2)).sum
      = (l.map (fun e => f e.2)).sum + f v := by
  induction l with
  | nil => simp [alistUpsert]
  | cons e rest ih =>
    have hek : ¬ e.1 = k := by
      intro hek
      rw [alistLookup, if_pos hek] at h
      cases h
    rw [alistLookup, if_neg hek] at h
    obtain ⟨k2, v2⟩ := e
    simp only [alistUpsert, if_neg hek, List.map_cons, List.sum_cons, ih h]
    omega

theorem sum_alistUpsert_some (f : ((Nat × Nat) × Nat) → Nat)
    {l : List (Addr × ((Nat × Nat) × Nat))} {k : Addr}
    {u v : (Nat × Nat) × Nat} (h : alistLookup l k = some u) :
    ((alistUpsert l k v).map (fun e => f e.2)).sum + f u
      = (l.map (fun e => f e.2)).sum + f v := by
  induction l with
  | nil => cases h
  | cons e rest ih =>
    obtain ⟨k2, v2⟩ := e
    by_cases hek : k2 = k
    · rw [alistLookup, if_pos hek] at h
      have hu : v2 = u := Option.some.inj h
      simp only [alistUpsert, if_pos hek, List.map_cons, List.sum_cons, hu]
      omega
    · rw [alistLookup, if_neg hek] at h
      simp only [alistUpsert, if_neg hek, List.map_cons, List.sum_cons]
      have := ih h
      omega

theorem alistRemove_of_not_mem [DecidableEq κ] {l : List (κ × β)} {k : κ}
    (h : k ∉ alistKeys l) : alistRemove l k = l := by
  induction l with
  | nil => rfl
  | cons e rest ih =>
    have hne : ¬ e.1 = k := by
      intro heq
      exact h (heq ▸ List.mem_map.mpr ⟨e, List.mem_cons_self e rest, rfl⟩)
    obtain ⟨k2, v2⟩ := e
    rw [alistRemove, if_neg hne, ih (fun hm => h (List.mem_cons_of_mem _ hm))]

theorem sum_alistRemove (f : ((Nat × Nat) × Nat) → Nat)
    {l : List (Addr × ((Nat × Nat) × Nat))} {k : Addr} {u : (Nat × Nat) × Nat}
    (hnd : (alistKeys l).Nodup) (h : alistLookup l k = some u) :
    ((alistRemove l k).map (fun e => f e.2)).sum + f u
      = (l.map (fun e => f e.2)).sum := by
  induction l with
  | nil => cases h
  | cons e rest ih =>
    have hnd2 : e.1 ∉ alistKeys rest ∧ (alistKeys rest).Nodup :=
      List.nodup_cons.mp hnd
    obtain ⟨k2, v2⟩ := e
    by_cases hek : k2 = k
    · rw [alistLookup, if_pos hek] at h
      have hu : v2 = u := Option.some.inj h
      rw [alistRemove, if_pos hek, alistRemove_of_not_mem (hek ▸ hnd2.1)]
      simp only [List.map_cons, List.sum_cons, hu]
      omega
    · rw [alistLookup, if_neg hek] at h
      rw [alistRemove, if_neg hek]
      simp only [List.map_cons, List.sum_cons]
      have := ih hnd2.2 h
      omega

/-- Deposit-for-mint preserves the conservation invariant: the per-account
entry and the aggregate are credited by exactly the same amounts. -/
theorem deposit_for_mint_preserves_conservation (cfg : VaultConfig)
    (s : VaultState) (sender : Addr) (funds : List Coin) (minOut : Option Nat)
    (s2 : VaultState) (hc : mintConservation s)
    (h : execute_deposit_for_mint cfg s sender funds minOut = .ok s2) :
    mintConservation s2 := by
  unfold execute_deposit_for_mint at h
  split at h
  · cases h
  · split at h
    · cases h
    · split at h
      · cases h
      · split at h
        · cases h
        · cases hv : verify_mint_funds cfg funds with
          | err er => rw [hv] at h; cases h
          | panic => rw [hv] at h; cases h
          | ok m =>
            rw [hv] at h
            simp only [Outcome.ok_bind] at h
            cases hl : alistLookup s.accountsPendingMint sender with
            | some uv =>
              obtain ⟨⟨c0, c1⟩, mo⟩ := uv
              rw [hl] at h
              simp only [] at h
              have hs2 := (Outcome.ok.inj h).symm
              obtain ⟨hc0, hc1⟩ := hc
              constructor
              · rw [hs2]
                have hsum := sum_alistUpsert_some (fun p => p.1.1) hl
                  (v := ((c0 + m.1, c1 + m.2), mo + minOut.getD 0))
                dsimp only at hsum
                simp only [pendingSum0] at hc0 ⊢
                omega
              · rw [hs2]
                have hsum := sum_alistUpsert_some (fun p => p.1.2) hl
                  (v := ((c0 + m.1, c1 + m.2), mo + minOut.getD 0))
                dsimp only at hsum
                simp only [pendingSum1] at hc1 ⊢
                omega
            | none =>
              rw [hl] at h
              simp only [] at h
              have hs2 := (Outcome.ok.inj h).symm
              obtain ⟨hc0, hc1⟩ := hc
              constructor
              · rw [hs2]
                have hsum := sum_alistUpsert_none (fun p => p.1.1) hl
                  (v := ((m.1, m.2), minOut.getD 0))
                dsimp only at hsum
                simp only [pendingSum0] at hc0 ⊢
                omega
              · rw [hs2]
                have hsum := sum_alistUpsert_none (fun p => p.1.2) hl
                  (v := ((m.1, m.2), minOut.getD 0))
                dsimp only at hsum
                simp only [pendingSum1] at hc1 ⊢
                omega

/-- Cancelling a pending deposit via deposit-for-burn preserves the
conservation invariant on a non-terminated vault: the aggregate is debited
by exactly the removed entry's funds. -/
theorem deposit_for_burn_cancel_preserves_conservation (cfg : VaultConfig)
    (ev : VaultEnv) (s : VaultState) (sender : Addr) (amount : Option Nat)
    (funds : List Coin) (s2 : VaultState) (msgs : List Msg)
    (hterm : s.terminated = false)
    (hnd : (alistKeys s.accountsPendingMint).Nodup)
    (hc : mintConservation s)
    (h : execute_deposit_for_burn cfg ev s sender none amount funds = .ok (s2, msgs)) :
    mintConservation s2 := by
  unfold execute_deposit_for_burn at h
  split at h
  · cases h
  · split at h
    · cases h
    next f0 frest =>
      cases hv : verify_burn_funds cfg (f0 :: frest) with
      | err er => simp only [hv, Outcome.err_bind, Outcome.ok_bind] at h; cases h
      | panic => simp only [hv, Outcome.panic_bind, Outcome.ok_bind] at h; cases h
      | ok u =>
        simp only [hv, Outcome.ok_bind] at h
        cases hl : alistLookup s.accountsPendingMint sender with
        | none =>
          simp only [hl, Outcome.ok_bind] at h
          split at h
          next hcond => simp [hterm] at hcond
          next =>
            have hpair := Outcome.ok.inj h
            simp only [Prod.mk.injEq] at hpair
            rw [← hpair.1]
            exact hc
        | some uv =>
          obtain ⟨⟨pm0, pm1⟩, mo⟩ := uv
          simp only [hl] at h
          unfold subOrPanic at h
          split at h
          next hle0 =>
            simp only [Outcome.ok_bind] at h
            split at h
            next hle1 =>
              simp only [Outcome.ok_bind] at h
              split at h
              next hcond => simp [hterm] at hcond
              next =>
                have hpair := Outcome.ok.inj h
                simp only [Prod.mk.injEq] at hpair
                rw [← hpair.1]
                obtain ⟨hc0, hc1⟩ := hc
                constructor
                · have hsum := sum_alistRemove (fun p => p.1.1) hnd hl
                  dsimp only at hsum
                  simp only [pendingSum0] at hc0 ⊢
                  omega
                · have hsum := sum_alistRemove (fun p => p.1.2) hnd hl
                  dsimp only at hsum
                  simp only [pendingSum1] at hc1 ⊢
                  omega
            next => simp only [Outcome.panic_bind] at h; cases h
          next => simp only [Outcome.panic_bind] at h; cases h

theorem mem_alistRemove [DecidableEq κ] {l : List (κ × β)} {k : κ} {x : κ × β} :
    x ∈ alistRemove l k ↔ x ∈ l ∧ ¬ x.1 = k := by
  induction l with
  | nil => simp [alistRemove]
  | cons e rest ih =>
    obtain ⟨k2, v2⟩ := e
    by_cases hek : k2 = k
    · rw [alistRemove, if_pos hek, ih]
      constructor
      · intro hx
        exact ⟨List.mem_cons_of_mem _ hx.1, hx.2⟩
      · intro hx
        rcases List.mem_cons.mp hx.1 with p | p
        · exact absurd (p ▸ hek) hx.2
        · exact ⟨p, hx.2⟩
    · rw [alistRemove, if_neg hek]
      simp only [List.mem_cons, ih]
      constructor
      · intro hx
        rcases hx with p | p
        · exact ⟨Or.inl p, p ▸ hek⟩
        · exact ⟨Or.inr p.1, p.2⟩
      · intro hx
        rcases hx.1 with p | p
        · exact Or.inl p
        · exact Or.inr ⟨p, hx.2⟩

theorem alistKeys_remove_nodup [DecidableEq κ] {l : List (κ × β)} {k : κ}
    (hnd : (alistKeys l).Nodup) : (alistKeys (alistRemove l k)).Nodup := by
  induction l with
  | nil => simp [alistRemove, alistKeys]
  | cons e rest ih =>
    have hnd2 : e.1 ∉ alistKeys rest ∧ (alistKeys rest).Nodup :=
      List.nodup_cons.mp hnd
    obtain ⟨k2, v2⟩ := e
    by_cases hek : k2 = k
    · rw [alistRemove, if_pos hek]
      exact ih hnd2.2
    · rw [alistRemove, if_neg hek]
      refine List.nodup_cons.mpr ⟨?_, ih hnd2.2⟩
      intro hin
      obtain ⟨x, hx, hxk⟩ := List.mem_map.mp hin
      exact hnd2.1 (hxk ▸ List.mem_map.mpr ⟨x, (mem_alistRemove.mp hx).1, rfl⟩)

theorem sum_removeEntryKeys (f : ((Nat × Nat) × Nat) → Nat) :
    ∀ (entries l : List (Addr × ((Nat × Nat) × Nat))),
      (alistKeys l).Nodup → (∀ e ∈ entries, e ∈ l) →
      (alistKeys entries).Nodup →
      ((removeEntryKeys l entries).map (fun e => f e.2)).sum
          + (entries.map (fun e => f e.2)).sum
        = (l.map (fun e => f e.2)).sum := by
  intro entries
  induction entries with
  | nil =>
    intro l _ _ _
    simp [removeEntryKeys]
  | cons e rest ih =>
    intro l hnd hsub hknd
    have hknd2 : e.1 ∉ alistKeys rest ∧ (alistKeys rest).Nodup :=
      List.nodup_cons.mp hknd
    have hmem : (e.1, e.2) ∈ l := hsub e (List.mem_cons_self e rest)
    have hlook : alistLookup l e.1 = some e.2 := alistLookup_of_mem_nodup hnd hmem
    have hrem := sum_alistRemove f hnd hlook
    have hstep : removeEntryKeys l (e :: rest)
        = removeEntryKeys (alistRemove l e.1) rest := rfl
    have hrec := ih (alistRemove l e.1) (alistKeys_remove_nodup hnd)
      (fun x hx => mem_alistRemove.mpr
        ⟨hsub x (List.mem_cons_of_mem e hx),
         fun hxk => hknd2.1 (hxk ▸ List.mem_map.mpr ⟨x, hx, rfl⟩)⟩)
      hknd2.2
    rw [hstep]
    simp only [List.map_cons, List.sum_cons]
    omega

theorem settledEntries_keys_nodup {pr : Pricing}
    {l : List (Addr × ((Nat × Nat) × Nat))} (hnd : (alistKeys l).Nodup) :
    (alistKeys (settledEntries pr l)).Nodup :=
  hnd.sublist ((List.filter_sublist l).map Prod.fst)

/-- Settling the pending-mint queue preserves the conservation invariant:
the aggregate is debited by exactly the funds of the entries removed from
the map. -/
theorem process_mints_preserves_conservation (cfg : VaultConfig)
    (ev : VaultEnv) (s : VaultState) (s2 : VaultState) (msgs : List Msg)
    (hnd : (alistKeys s.accountsPendingMint).Nodup)
    (hc : mintConservation s)
    (h : process_mints cfg ev s = .ok (s2, msgs)) :
    mintConservation s2 := by
  unfold process_mints at h
  by_cases hent : s.accountsPendingMint = []
  · rw [if_pos hent] at h
    have hpair := Outcome.ok.inj h
    simp only [Prod.mk.injEq] at hpair
    rw [← hpair.1]
    exact hc
  · rw [if_neg hent] at h
    cases hbal : get_vault_balances cfg ev s true with
    | err er => rw [hbal] at h; cases h
    | panic => rw [hbal] at h; cases h
    | ok bal =>
      rw [hbal] at h
      simp only [Outcome.ok_bind] at h
      cases hpr : get_vault_pricing cfg ev s bal.1 bal.2 with
      | err er => rw [hpr] at h; cases h
      | panic => rw [hpr] at h; cases h
      | ok pr =>
        rw [hpr] at h
        simp only [Outcome.ok_bind] at h
        cases hml : mintLoop cfg pr s.accountsPendingMint
            ⟨s.accountsPendingMint, s.pending0, s.pending1, 0, pr.totalDollars, []⟩ with
        | err er => rw [hml] at h; cases h
        | panic => rw [hml] at h; cases h
        | ok acc =>
          rw [hml] at h
          simp only [Outcome.ok_bind] at h
          have hpair := Outcome.ok.inj h
          simp only [Prod.mk.injEq] at hpair
          rw [← hpair.1]
          obtain ⟨hmap, hle0, hp0, hle1, hp1, _⟩ :=
            mintLoop_spec cfg pr s.accountsPendingMint _ acc hml
          have hmap2 : acc.map
              = removeEntryKeys s.accountsPendingMint
                  (settledEntries pr s.accountsPendingMint) := by
            simpa using hmap
          have hp0b : acc.pending0
              = s.pending0 - pendingSum0 (settledEntries pr s.accountsPendingMint) := by
            simpa using hp0
          have hle0b : pendingSum0 (settledEntries pr s.accountsPendingMint)
              ≤ s.pending0 := by simpa using hle0
          have hp1b : acc.pending1
              = s.pending1 - pendingSum1 (settledEntries pr s.accountsPendingMint) := by
            simpa using hp1
          have hle1b : pendingSum1 (settledEntries pr s.accountsPendingMint)
              ≤ s.pending1 := by simpa using hle1
          obtain ⟨hc0, hc1⟩ := hc
          have hsubset : ∀ e ∈ settledEntries pr s.accountsPendingMint,
              e ∈ s.accountsPendingMint :=
            fun e he => List.mem_of_mem_filter he
          have hsknd := @settledEntries_keys_nodup pr s.accountsPendingMint hnd
          constructor
          · have hsum := sum_removeEntryKeys (fun p => p.1.1)
              (settledEntries pr s.accountsPendingMint) s.accountsPendingMint
              hnd hsubset hsknd
            dsimp only at hsum ⊢
            rw [hmap2, hp0b]
            simp only [pendingSum0] at hc0 hle0b ⊢
            omega
          · have hsum := sum_removeEntryKeys (fun p => p.1.2)
              (settledEntries pr s.accountsPendingMint) s.accountsPendingMint
              hnd hsubset hsknd
            dsimp only at hsum ⊢
            rw [hmap2, hp1b]
            simp only [pendingSum1] at hc1 hle1b ⊢
            omega

/-- The unlock gate inequality itself holds as specified: a non-operator
Unlock before `LAST_UPDATE + MAX_UPDATE_INTERVAL` fails with
`CantUnlockYet` carrying the remaining seconds. -/
theorem unlock_gate_blocks_early_callers (cfg : VaultConfig) (ev : VaultEnv)
    (s : VaultState) (sender : Addr)
    (hs : sender ≠ cfg.operator)
    (ht : ev.now < s.lastUpdate + MAX_UPDATE_INTERVAL) :
    execute_unlock cfg ev s sender
      = .err (.cantUnlockYet (s.lastUpdate + MAX_UPDATE_INTERVAL - ev.now)) := by
  unfold execute_unlock
  rw [if_pos ⟨hs, ht⟩]
